import Mathlib

/-!
Verification development for the xv6-riscv file-system core
(`fs.c`, the low-level routines, and `sysfile.c`, the system-call layer).

The development is a shallow embedding:
* machine integers (`uint`) are modelled as `Nat`, with an explicit
  `% 2^32` exactly where the C code's unsigned wrap-around is observable
  (the `off + n < off` overflow guards);
* the disk is a total function `blockno → cell → value`; data blocks are
  read and written bytewise, indirect blocks hold one 32-bit block number
  per cell (cell `i` abstracts the 4-byte little-endian group at byte
  offset `4*i`; the two views never alias because the state invariant
  keeps data and indirect blocks disjoint);
* the block allocator's bitmap scan is abstracted by the sequence
  (`stream`, `ptr`) of block numbers it will hand out; `balloc` pops the
  next one and zeroes the block, exactly as `balloc`+`bzero` do.
  Exhaustion (`panic("balloc: out of blocks")`) is out of scope of the
  claims, so the sequence is total;
* `either_copyin` / `either_copyout` are external collaborators; a copy
  is an atomic byte-range move that succeeds or fails as dictated by an
  oracle `ok : Nat → Bool` indexed by the loop's running total;
* `log_write`, `bread`, `brelse` move bytes between the disk and buffers
  pinned in the buffer cache; within one transaction this is equivalent
  to operating on the disk image directly, which is how the model reads;
* `iupdate` writes the in-memory inode through to its inode-region
  block.  Inode metadata is carried in the `Inode` record and the
  inode-region blocks are not aliased with data blocks, so `iupdate` has
  no observable effect on the modelled disk.

The `fs.h` header is not among the provided sources; the layout
constants below follow the specification (§6: `BSIZE` 1024,
`NINDIRECT = BSIZE/4`, `DIRSIZ` 14, `MAXFILE = NDIRECT + NINDIRECT +
NINDIRECT²`) with the doubly-indirect lab's `NDIRECT = 11`
(`addrs[NDIRECT+2]` per the spec's data model).  No claim depends on the
particular numeric value of `NDIRECT`.
-/

/-- Block size in bytes (spec §6). -/
def BSIZE : Nat := 1024

/-- Number of direct block pointers in an inode. -/
def NDIRECT : Nat := 11

/-- Number of block pointers per indirect block: `BSIZE / sizeof(uint)`. -/
def NINDIRECT : Nat := BSIZE / 4

/-- Maximum number of addressable blocks per inode:
direct + singly-indirect + doubly-indirect. -/
def MAXFILE : Nat := NDIRECT + NINDIRECT + NINDIRECT * NINDIRECT

/-- Maximum length of a directory-entry name. -/
def DIRSIZ : Nat := 14

/-- The modulus of the C `uint` type. -/
def U32 : Nat := 4294967296

/-- Conversion of a C `uint` value to the C `int` it becomes on
`return n;` (two's-complement reinterpretation). -/
def cint (x : Nat) : Int := if x < 2147483648 then (x : Int) else (x : Int) - (U32 : Int)

/-! ## Path element scanning: `skipelem` (fs.c)

A C string is a `List Char` of its characters before the terminating
NUL.  Each `while` loop of `skipelem` becomes one recursive function;
the name buffer is represented by the list of bytes the two `memmove`
branches write into it (including the NUL terminator when one is
written). -/

/-- First loop of `skipelem`: `while(*path == '/') path++;`. -/
def dropSlashes : List Char → List Char
  | [] => []
  | c :: p => if c = '/' then dropSlashes p else c :: p

/-- Second loop, the part scanned over:
`while(*path != '/' && *path != 0) path++;` — the element between `s`
and the final `path`. -/
def takeElem : List Char → List Char
  | [] => []
  | c :: p => if c = '/' then [] else c :: takeElem p

/-- Second loop, the remainder: where `path` points after the scan. -/
def dropElem : List Char → List Char
  | [] => []
  | c :: p => if c = '/' then c :: p else dropElem p

/-- `skipelem(path, name)`: returns `none` for the C `return 0` (no
element), otherwise `some (rest, name)` where `rest` is the returned
pointer and `name` the bytes written into the name buffer. -/
def skipelem (path : List Char) : Option (List Char × List Char) :=
  match dropSlashes path with
  | [] => none
  | c :: p1 =>
    let elem := takeElem (c :: p1)
    let nm := if DIRSIZ ≤ elem.length then elem.take DIRSIZ else elem ++ [Char.ofNat 0]
    some (dropSlashes (dropElem (c :: p1)), nm)

/-! ## `sys_link` (sysfile.c)

The claim is about the returned status and the target inode's `nlink`.
The external calls `namei`, `nameiparent`, `dirlink` and the device
comparison are oracles; the function mirrors `sys_link`'s control flow
(including the `bad:` rollback label) and threads the target's `nlink`
through it. -/

/-- Outcomes of the external calls made by `sys_link`. -/
structure LinkEnv where
  /-- `namei(old) != 0`. -/
  oldResolves : Bool
  /-- the resolved old inode has `type == T_DIR`. -/
  targetIsDir : Bool
  /-- `nameiparent(new, name) != 0`. -/
  parentResolves : Bool
  /-- `dp->dev == ip->dev`. -/
  sameDev : Bool
  /-- `dirlink(dp, name, ip->inum) >= 0`. -/
  dirlinkOk : Bool

/-- `sys_link`, returning the syscall result and the target inode's
`nlink` after the call (input `nl` is its `nlink` before the call). -/
def sysLink (e : LinkEnv) (nl : Nat) : Int × Nat :=
  if ¬ e.oldResolves then (-1, nl)
  else if e.targetIsDir then (-1, nl)
  else
    -- ip->nlink++; iupdate(ip); iunlock(ip);
    let nl1 := nl + 1
    if ¬ e.parentResolves then (-1, nl1 - 1)          -- bad: ip->nlink--
    else if ¬ e.sameDev ∨ ¬ e.dirlinkOk then (-1, nl1 - 1)  -- bad:
    else (0, nl1)

/-! ## `create` (sysfile.c)

The claim is about link counts and the `.` / `..` entries of a freshly
created directory.  Directory content is abstracted to its sequence of
live entries `(name, inum)`; `dirlink` rejects a present name and
otherwise stores the entry (the code's first-free-slot scan only decides
the byte offset, which the claim does not mention). -/

/-- `T_DIR` from stat.h. -/
def T_DIR : Nat := 1

/-- `T_FILE` from stat.h. -/
def T_FILE : Nat := 2

/-- A directory-capable inode as `create` touches it. -/
structure CIno where
  typ : Nat
  nlink : Nat
  entries : List (String × Nat)
deriving DecidableEq

/-- `dirlink(dp, name, inum)`: `-1` (here `none`) if the name is
present, else record the entry. -/
def dirlinkM (d : CIno) (name : String) (inum : Nat) : Option CIno :=
  if d.entries.any (fun en => en.1 = name) then none
  else some { d with entries := d.entries ++ [(name, inum)] }

/-- `create(path, type, ..)` on the path where the name is not yet
present in the resolved parent: `ialloc` the child (zeroed record with
the given type), set `nlink = 1`, and for `T_DIR` bump the parent's
`nlink` and insert `.` and `..` before linking the name in the parent.
`dp` is the parent, `dpInum` its inode number, `newInum` the number
`ialloc` hands out.  Returns `(parent, child)` after the call. -/
def createM (dp : CIno) (dpInum newInum typ : Nat) (name : String) :
    Option (CIno × CIno) :=
  if dp.entries.any (fun en => en.1 = name) then none
  else
    let ip : CIno := { typ := typ, nlink := 1, entries := [] }
    let pair :=
      if typ = T_DIR then
        -- dp->nlink++ for "..": iupdate(dp);
        -- dirlink(ip, ".", ip->inum); dirlink(ip, "..", dp->inum);
        match dirlinkM ip "." newInum with
        | none => none
        | some ip1 =>
          match dirlinkM ip1 ".." dpInum with
          | none => none
          | some ip2 => some ({ dp with nlink := dp.nlink + 1 }, ip2)
      else some (dp, ip)
    match pair with
    | none => none
    | some (dp1, ip1) =>
      match dirlinkM dp1 name newInum with
      | none => none
      | some dp2 => some (dp2, ip1)

/-! ## `ialloc` (fs.c)

The on-disk inode region is a list of `dinode` records indexed by inode
number.  `ialloc` scans from inode 1 for a record with `type == 0`,
zeroes the whole record (`memset(dip, 0, sizeof(*dip))`) and sets its
type. -/

/-- On-disk inode record. -/
structure Dinode where
  dtype : Nat
  major : Nat
  minor : Nat
  nlink : Nat
  size : Nat
  addrs : List Nat
deriving DecidableEq

/-- The record `ialloc` leaves on disk: all-zero except the type. -/
def freshDinode (t : Nat) : Dinode :=
  { dtype := t, major := 0, minor := 0, nlink := 0, size := 0,
    addrs := List.replicate (NDIRECT + 2) 0 }

/-- Scan of the inode region from the current position; index is
relative to the head of the list. -/
def iallocGo (t : Nat) : List Dinode → Option (Nat × List Dinode)
  | [] => none
  | d :: rest =>
    if d.dtype = 0 then some (0, freshDinode t :: rest)
    else (iallocGo t rest).map (fun pr => (pr.1 + 1, d :: pr.2))

/-- `ialloc(dev, type)` over the inode table `tbl` (indexed by inode
number; entry 0 is inode 0, which the scan skips: `inum` starts at 1).
`none` models `panic("ialloc: no inodes")`. -/
def iallocM (t : Nat) (tbl : List Dinode) : Option (Nat × List Dinode) :=
  match tbl with
  | [] => none
  | d0 :: rest => (iallocGo t rest).map (fun pr => (pr.1 + 1, d0 :: pr.2))

/-! ## `bmap` control flow (fs.c)

`bmap`'s body is: an `if (bn < NDIRECT)` that returns; `bn -= NDIRECT`;
an `if (bn < NINDIRECT)` whose then-branch returns **and whose
else-branch also returns**; and only then `panic("bmap: out of
range")`.  The skeleton below records which exit a given `bn` reaches;
`panicOutOfRange` stands for the trailing panic statement. -/

/-- The four syntactic exits of `bmap`. -/
inductive BmapExitPoint where
  | directReturn
  | singleReturn
  | doubleReturn
  | panicOutOfRange
deriving DecidableEq

/-- Which exit `bmap` takes for logical block `bn`.  Both arms of the
second `if` end in `return`, so no control path falls through to the
trailing `panic`. -/
def bmapExit (bn : Nat) : BmapExitPoint :=
  if bn < NDIRECT then .directReturn
  else if bn - NDIRECT < NINDIRECT then .singleReturn
  else .doubleReturn

/-- The child directory record `create(.., T_DIR, ..)` builds before it
links the name into the parent: `nlink = 1` and the `.` / `..`
entries. -/
def dotDirChild (newInum dpInum : Nat) : CIno :=
  { typ := T_DIR, nlink := 1, entries := [(".", newInum), ("..", dpInum)] }

/-! ## Inode content: `bmap`, `readi`, `writei` (fs.c)

State of the content layer: the disk image and the allocator.  A block
is a total function from cell index to value; cells of a data block are
its bytes, cells of an indirect block are its 32-bit entries (see the
file header).  `stream`/`ptr` abstract `balloc`'s bitmap scan: the
bitmap determines the sequence of block numbers successive `balloc`
calls return, and `ptr` counts the calls made so far. -/

/-- Disk and allocator state. -/
structure FsState where
  disk : Nat → Nat → Nat
  stream : Nat → Nat
  ptr : Nat

/-- In-memory inode content fields used by the content layer
(`major`/`minor` take no part in `bmap`/`readi`/`writei`).
`addrs k` for `k < NDIRECT + 2` are the block pointers. -/
structure Inode where
  typ : Nat
  nlink : Nat
  size : Nat
  addrs : Nat → Nat

/-- Pointwise function update. -/
def upd (f : Nat → Nat) (k v : Nat) : Nat → Nat :=
  fun x => if x = k then v else f x

/-- `balloc(dev)`: hand out the next block of the allocation sequence,
zeroing it (`bzero` inside `balloc`). -/
def balloc (s : FsState) : Nat × FsState :=
  (s.stream s.ptr,
   { disk := fun b i => if b = s.stream s.ptr then 0 else s.disk b i,
     stream := s.stream, ptr := s.ptr + 1 })

/-- Write entry `j` of block `b` (an indirect-block store followed by
`log_write`). -/
def setEnt (s : FsState) (b j v : Nat) : FsState :=
  { s with disk := fun x i => if x = b ∧ i = j then v else s.disk x i }

/-- The `if((addr = ip->addrs[k]) == 0) ip->addrs[k] = addr = balloc(..)`
pattern of `bmap`. -/
def ensureAddr (s : FsState) (ip : Inode) (k : Nat) : Nat × FsState × Inode :=
  if ip.addrs k = 0 then
    let r := balloc s
    (r.1, r.2, { ip with addrs := upd ip.addrs k r.1 })
  else (ip.addrs k, s, ip)

/-- The `if((addr = a[j]) == 0){ a[j] = addr = balloc(..); log_write(bp); }`
pattern of `bmap`, on entry `j` of block `b`. -/
def ensureEnt (s : FsState) (b j : Nat) : Nat × FsState :=
  if s.disk b j = 0 then
    let r := balloc s
    (r.1, setEnt r.2 b j r.1)
  else (s.disk b j, s)

/-- `bmap(ip, bn)`: block address of the `bn`-th content block,
allocating missing blocks along the path.  The three branches mirror
the source: direct, singly-indirect, and the final `else` arm that
handles everything else as doubly-indirect (see `bmapExit` for the
unreachable trailing panic). -/
def bmap (s : FsState) (ip : Inode) (bn : Nat) : Nat × FsState × Inode :=
  if bn < NDIRECT then
    ensureAddr s ip bn
  else
    let bn1 := bn - NDIRECT
    if bn1 < NINDIRECT then
      let r := ensureAddr s ip NDIRECT
      let r2 := ensureEnt r.2.1 r.1 bn1
      (r2.1, r2.2, r.2.2)
    else
      let bn2 := bn1 - NINDIRECT
      let r := ensureAddr s ip (NDIRECT + 1)
      let r2 := ensureEnt r.2.1 r.1 (bn2 / NINDIRECT)
      let r3 := ensureEnt r2.2 r2.1 (bn2 % NINDIRECT)
      (r3.1, r3.2, r.2.2)

/-- The block currently backing logical block `bn` (0 when any pointer
on the path is still unallocated), read off the inode and disk exactly
as `bmap` would without allocating. -/
def dataAddr (s : FsState) (ip : Inode) (bn : Nat) : Nat :=
  if bn < NDIRECT then ip.addrs bn
  else if bn - NDIRECT < NINDIRECT then
    (if ip.addrs NDIRECT = 0 then 0 else s.disk (ip.addrs NDIRECT) (bn - NDIRECT))
  else
    (if ip.addrs (NDIRECT + 1) = 0 then 0
     else
       let l1 := s.disk (ip.addrs (NDIRECT + 1)) ((bn - NDIRECT - NINDIRECT) / NINDIRECT)
       if l1 = 0 then 0 else s.disk l1 ((bn - NDIRECT - NINDIRECT) % NINDIRECT))

/-- The distinguishable positions a block number can occupy in one
inode's block tree: backing store of logical block `bn`, the
singly-indirect block, the doubly-indirect block, or the `j`-th
second-level indirect block. -/
inductive Role where
  | data (bn : Nat)
  | ind
  | dbl
  | l2 (j : Nat)
deriving DecidableEq

/-- The block number currently occupying a role (0 = none). -/
def roleAddr (s : FsState) (ip : Inode) : Role → Nat
  | .data bn => dataAddr s ip bn
  | .ind => ip.addrs NDIRECT
  | .dbl => ip.addrs (NDIRECT + 1)
  | .l2 j => if ip.addrs (NDIRECT + 1) = 0 then 0 else s.disk (ip.addrs (NDIRECT + 1)) j

/-- In-range roles. -/
def RoleOk : Role → Prop
  | .data bn => bn < MAXFILE
  | .ind => True
  | .dbl => True
  | .l2 j => j < NINDIRECT

/-- Well-formedness of a reachable file-system state, relative to one
inode: distinct tree positions hold distinct nonzero blocks (the
spec's no-double-allocation invariant restricted to this inode's
tree), and the blocks the allocator will hand out are nonzero,
pairwise distinct, and not yet part of the tree (they are free in the
bitmap). -/
structure Valid (s : FsState) (ip : Inode) : Prop where
  inj : ∀ r r', RoleOk r → RoleOk r' → r ≠ r' → roleAddr s ip r ≠ 0 →
    roleAddr s ip r ≠ roleAddr s ip r'
  sInj : ∀ i j, s.ptr ≤ i → i < j → s.stream i ≠ s.stream j
  sNZ : ∀ i, s.ptr ≤ i → s.stream i ≠ 0
  sFresh : ∀ i r, s.ptr ≤ i → RoleOk r → s.stream i ≠ roleAddr s ip r

/-- `either_copyout(user_dst, dst, bp->data + off%BSIZE, m)`: copy `m`
bytes `f 0 .. f (m-1)` into the destination address space at `a`. -/
def copyOut (dst : Nat → Nat) (a : Nat) (f : Nat → Nat) (m : Nat) : Nat → Nat :=
  fun x => if a ≤ x ∧ x < a + m then f (x - a) else dst x

/-- `either_copyin(bp->data + off%BSIZE, user_src, src, m)` followed by
`log_write(bp)`: write `m` bytes into block `b` at cell offset `o`. -/
def writeBytes (s : FsState) (b o : Nat) (f : Nat → Nat) (m : Nat) : FsState :=
  { s with disk := fun x i => if x = b ∧ o ≤ i ∧ i < o + m then f (i - o) else s.disk x i }

/-- Copy oracle that always succeeds. -/
def okTrue : Nat → Bool := fun _ => true

/-- Copy oracle that always fails. -/
def okNone : Nat → Bool := fun _ => false

/-- The `for(tot=0; tot<n; tot+=m, off+=m, dst+=m)` loop of `readi`.
Each iteration `bmap`s the block holding `off`, computes
`m = min(n - tot, BSIZE - off%BSIZE)`, and copies; a failing
`either_copyout` breaks out (after `brelse`), leaving the destination
untouched by this iteration.  `fuel` bounds the recursion; every
iteration advances `tot` by `m ≥ 1`, so `fuel = n + 1` never runs
out. -/
def readLoop : Nat → FsState → Inode → (Nat → Nat) → Nat → Nat → Nat → Nat →
    (Nat → Bool) → (Nat → Nat) × FsState × Inode
  | 0, s, ip, dst, _, _, _, _, _ => (dst, s, ip)
  | fuel + 1, s, ip, dst, dstA, off, n, tot, ok =>
    if tot < n then
      let r := bmap s ip (off / BSIZE)
      let m := min (n - tot) (BSIZE - off % BSIZE)
      if ok tot then
        readLoop fuel r.2.1 r.2.2
          (copyOut dst dstA (fun i => r.2.1.disk r.1 (off % BSIZE + i)) m)
          (dstA + m) (off + m) n (tot + m) ok
      else (dst, r.2.1, r.2.2)
    else (dst, s, ip)

/-- `readi(ip, user_dst, dst, off, n)`: the range guards, the clamp of
`n` to the file size, and the transfer loop.  Returns the C return
value and the resulting destination memory, disk, and inode. -/
def readi (s : FsState) (ip : Inode) (dst : Nat → Nat) (dstA off n : Nat)
    (ok : Nat → Bool) : Int × (Nat → Nat) × FsState × Inode :=
  if ip.size < off ∨ (off + n) % U32 < off then (-1, dst, s, ip)
  else
    let n1 := if ip.size < off + n then ip.size - off else n
    let r := readLoop (n1 + 1) s ip dst dstA off n1 0 ok
    (cint n1, r)

/-- The write loop of `writei`; a failing `either_copyin` breaks out
before `log_write`, leaving the block unchanged.  Returns the state,
the inode, and the final value of `off`, which the epilogue uses. -/
def writeLoop : Nat → FsState → Inode → (Nat → Nat) → Nat → Nat → Nat → Nat →
    (Nat → Bool) → FsState × Inode × Nat
  | 0, s, ip, _, _, off, _, _, _ => (s, ip, off)
  | fuel + 1, s, ip, src, srcA, off, n, tot, ok =>
    if tot < n then
      let r := bmap s ip (off / BSIZE)
      let m := min (n - tot) (BSIZE - off % BSIZE)
      if ok tot then
        writeLoop fuel (writeBytes r.2.1 r.1 (off % BSIZE) (fun i => src (srcA + i)) m)
          r.2.2 src (srcA + m) (off + m) n (tot + m) ok
      else (r.2.1, r.2.2, off)
    else (s, ip, off)

/-- `writei(ip, user_src, src, off, n)`: the strict `off > size` guard,
the overflow guard, the hard `MAXFILE*BSIZE` limit, the write loop,
and the size-extension epilogue (`if(n > 0){ if(off > ip->size)
ip->size = off; iupdate(ip); }`, with `off` the loop's final value). -/
def writei (s : FsState) (ip : Inode) (src : Nat → Nat) (srcA off n : Nat)
    (ok : Nat → Bool) : Int × FsState × Inode :=
  if ip.size < off ∨ (off + n) % U32 < off then (-1, s, ip)
  else if MAXFILE * BSIZE < (off + n) % U32 then (-1, s, ip)
  else
    let r := writeLoop (n + 1) s ip src srcA off n 0 ok
    let ip1 := r.2.1
    let ip2 := if 0 < n then
        (if ip1.size < r.2.2 then { ip1 with size := r.2.2 } else ip1)
      else ip1
    (cint n, r.1, ip2)

/-- All-zero disk, allocation sequence 2, 3, 4, …, no allocations yet. -/
def fs0 : FsState :=
  { disk := fun _ _ => 0, stream := fun i => i + 2, ptr := 0 }

/-- A fresh regular file: empty, no blocks. -/
def ino0 : Inode :=
  { typ := T_FILE, nlink := 1, size := 0, addrs := fun _ => 0 }

/-- A one-byte file whose data block is still a hole. -/
def ino1 : Inode :=
  { ino0 with size := 1 }

/-- A constant destination memory, recognizably nonzero. -/
def mem55 : Nat → Nat := fun _ => 55

/-- An arbitrary source byte pattern. -/
def src7 : Nat → Nat := fun i => (i * 7 + 3) % 256

/-! # Theorems for the path/link/create/ialloc claims -/

theorem dropSlashes_eq_dropWhile (p : List Char) :
    dropSlashes p = p.dropWhile (· = '/') := by
  induction p with
  | nil => rfl
  | cons c p ih =>
    by_cases h : c = '/' <;> simp [dropSlashes, List.dropWhile, h, ih]

theorem takeElem_eq_takeWhile (p : List Char) :
    takeElem p = p.takeWhile (· ≠ '/') := by
  induction p with
  | nil => rfl
  | cons c p ih =>
    by_cases h : c = '/' <;> simp [takeElem, List.takeWhile, h, ih]

theorem dropElem_eq_dropWhile (p : List Char) :
    dropElem p = p.dropWhile (· ≠ '/') := by
  induction p with
  | nil => rfl
  | cons c p ih =>
    by_cases h : c = '/' <;> simp [dropElem, List.dropWhile, h, ih]

/-- Claim C7: `skipelem` strips leading slashes and copies the next path
component into the name buffer: NUL-terminated when its length is below
`DIRSIZ`, and exactly the first `DIRSIZ` bytes with no NUL terminator
when its length is at least `DIRSIZ`; it returns the remainder of the
path past any trailing slashes, and returns 0 (`none`) exactly when the
path contains no component.  `hpath` states that `path` is the content
of a C string (no interior NUL byte). -/
theorem skipelem_spec (path : List Char) (hpath : Char.ofNat 0 ∉ path) :
    (skipelem path = none ↔ path.dropWhile (· = '/') = []) ∧
    (∀ rest nm, skipelem path = some (rest, nm) →
      (((path.dropWhile (· = '/')).takeWhile (· ≠ '/')).length < DIRSIZ →
        nm = ((path.dropWhile (· = '/')).takeWhile (· ≠ '/')) ++ [Char.ofNat 0]) ∧
      (DIRSIZ ≤ ((path.dropWhile (· = '/')).takeWhile (· ≠ '/')).length →
        nm = ((path.dropWhile (· = '/')).takeWhile (· ≠ '/')).take DIRSIZ ∧
          nm.length = DIRSIZ ∧ Char.ofNat 0 ∉ nm) ∧
      rest = ((path.dropWhile (· = '/')).dropWhile (· ≠ '/')).dropWhile (· = '/')) := by
  rw [← dropSlashes_eq_dropWhile path, ← takeElem_eq_takeWhile (dropSlashes path),
    ← dropElem_eq_dropWhile (dropSlashes path),
    ← dropSlashes_eq_dropWhile (dropElem (dropSlashes path))]
  rcases hd : dropSlashes path with _ | ⟨c, p1⟩
  · constructor
    · simp [skipelem, hd]
    · intro rest nm h
      simp [skipelem, hd] at h
  · constructor
    · simp [skipelem, hd]
    · intro rest nm h
      simp only [skipelem, hd] at h
      simp only [Option.some.injEq, Prod.mk.injEq] at h
      obtain ⟨hrest, hnm⟩ := h
      refine ⟨?_, ?_, hrest.symm⟩
      · intro hlen
        rw [← hnm, if_neg (Nat.not_le.mpr hlen)]
      · intro hlen
        rw [← hnm, if_pos hlen]
        refine ⟨rfl, by simp [Nat.min_eq_left hlen], ?_⟩
        intro hmem
        apply hpath
        have h1 : Char.ofNat 0 ∈ takeElem (c :: p1) := List.take_subset _ _ hmem
        rw [takeElem_eq_takeWhile] at h1
        have h2 : Char.ofNat 0 ∈ c :: p1 := (List.takeWhile_sublist _).subset h1
        rw [← hd, dropSlashes_eq_dropWhile] at h2
        exact (List.dropWhile_sublist _).subset h2

/-- Witness for C7 at a concrete path: the 16-character component
`abcdefghijklmnop` is truncated to its first `DIRSIZ = 14` bytes. -/
theorem skipelem_spec_witness :
    skipelem ("//abcdefghijklmnop/q".toList) =
        some ("q".toList, "abcdefghijklmn".toList) ∧
    ("abcdefghijklmn".toList = (((("//abcdefghijklmnop/q".toList).dropWhile (· = '/')).takeWhile
        (· ≠ '/')).take DIRSIZ) ∧
      ("abcdefghijklmn".toList).length = DIRSIZ ∧ Char.ofNat 0 ∉ "abcdefghijklmn".toList) ∧
    "q".toList = (((("//abcdefghijklmnop/q".toList).dropWhile (· = '/')).dropWhile
        (· ≠ '/')).dropWhile (· = '/')) :=
  ⟨by decide,
   ((skipelem_spec ("//abcdefghijklmnop/q".toList) (by decide)).2 ("q".toList)
      ("abcdefghijklmn".toList) (by decide)).2.1 (by decide),
   ((skipelem_spec ("//abcdefghijklmnop/q".toList) (by decide)).2 ("q".toList)
      ("abcdefghijklmn".toList) (by decide)).2.2⟩

/-- Claim C8: `sys_link` returns -1 when the inode named by `old` is a
directory, and on every failing execution the target inode's `nlink`
after the call equals its value before the call (the increment done
before a late failure is rolled back at the `bad:` label). -/
theorem sysLink_failure_atomic (e : LinkEnv) (nl : Nat) :
    (e.oldResolves = true → e.targetIsDir = true → (sysLink e nl).1 = -1) ∧
    (∀ r m, sysLink e nl = (r, m) → r = -1 → m = nl) := by
  constructor
  · intro ho hd
    simp [sysLink, ho, hd]
  · intro r m h hr
    unfold sysLink at h
    by_cases ho : e.oldResolves <;> simp [ho] at h
    · by_cases hd : e.targetIsDir <;> simp [hd] at h
      · omega
      · by_cases hp : e.parentResolves <;> simp [hp] at h
        · by_cases hs : e.sameDev <;> by_cases hk : e.dirlinkOk <;>
            simp [hs, hk] at h <;> omega
        · omega
    · omega

/-- Witness for C8: a directory target is refused, and a failure after
the increment (unresolvable parent of `new`) leaves `nlink` at its
original value 7. -/
theorem sysLink_failure_atomic_witness :
    (sysLink ⟨true, true, true, true, true⟩ 7).1 = -1 ∧
    (7 : Nat) = 7 :=
  ⟨(sysLink_failure_atomic ⟨true, true, true, true, true⟩ 7).1 rfl rfl,
   (sysLink_failure_atomic ⟨true, false, false, true, true⟩ 7).2 (-1) 7 (by decide) rfl⟩

/-- Computation of `create`'s `T_DIR` branch past the fresh-name check:
the child gets `nlink = 1` and the `.` / `..` entries, the parent gets
`nlink + 1`, and the outcome hinges only on the final
`dirlink(dp, name, ip->inum)`. -/
theorem createM_dir_eq (dp : CIno) (dpInum newInum : Nat) (name : String)
    (hpre : ¬ dp.entries.any (fun en => en.1 = name) = true) :
    createM dp dpInum newInum T_DIR name =
      (dirlinkM { dp with nlink := dp.nlink + 1 } name newInum).map
        (fun dp2 => (dp2, dotDirChild newInum dpInum)) := by
  unfold createM
  rw [if_neg hpre]
  have h1 : dirlinkM (⟨T_DIR, 1, []⟩ : CIno) "." newInum =
      some ⟨T_DIR, 1, [(".", newInum)]⟩ := by
    simp [dirlinkM]
  have h2 : dirlinkM (⟨T_DIR, 1, [(".", newInum)]⟩ : CIno) ".." dpInum =
      some (dotDirChild newInum dpInum) := by
    simp [dirlinkM, dotDirChild]
  simp only [if_pos rfl, h1, h2, if_true]
  cases dirlinkM { dp with nlink := dp.nlink + 1 } name newInum <;> rfl

/-- Claim C9: after a successful `create(path, T_DIR, ..)` the parent's
`nlink` has increased by exactly 1 (for the new child's `..`), the new
directory's own `nlink` equals 1 (no increment for `.`), and the new
directory contains `.` referring to itself and `..` referring to the
parent. -/
theorem createM_dir_links (dp : CIno) (dpInum newInum : Nat) (name : String)
    (dp' ip' : CIno) (h : createM dp dpInum newInum T_DIR name = some (dp', ip')) :
    dp'.nlink = dp.nlink + 1 ∧ ip'.nlink = 1 ∧
    (".", newInum) ∈ ip'.entries ∧ ("..", dpInum) ∈ ip'.entries := by
  by_cases hpre : dp.entries.any (fun en => en.1 = name) = true
  · unfold createM at h
    rw [if_pos hpre] at h
    simp at h
  · rw [createM_dir_eq dp dpInum newInum name hpre] at h
    cases hlink : dirlinkM { dp with nlink := dp.nlink + 1 } name newInum with
    | none => rw [hlink] at h; simp at h
    | some dp2 =>
      rw [hlink] at h
      simp only [Option.map_some', Option.some.injEq, Prod.mk.injEq] at h
      obtain ⟨hdp, hip⟩ := h
      unfold dirlinkM at hlink
      by_cases hp2 : ({ dp with nlink := dp.nlink + 1 } : CIno).entries.any
          (fun en => en.1 = name) = true
      · rw [if_pos hp2] at hlink; simp at hlink
      · rw [if_neg hp2] at hlink
        simp only [Option.some.injEq] at hlink
        refine ⟨?_, ?_, ?_, ?_⟩
        · rw [← hdp, ← hlink]
        · rw [← hip]; rfl
        · rw [← hip]; simp [dotDirChild]
        · rw [← hip]; simp [dotDirChild]

/-- Witness for C9: creating directory `d` under a parent with
`nlink = 2` yields parent `nlink` 3, child `nlink` 1, and the `.` /
`..` entries. -/
theorem createM_dir_links_witness :
    (⟨T_DIR, 3, [("d", 9)]⟩ : CIno).nlink = (⟨T_DIR, 2, []⟩ : CIno).nlink + 1 ∧
    (⟨T_DIR, 1, [(".", 9), ("..", 1)]⟩ : CIno).nlink = 1 ∧
    (".", 9) ∈ (⟨T_DIR, 1, [(".", 9), ("..", 1)]⟩ : CIno).entries ∧
    ("..", 1) ∈ (⟨T_DIR, 1, [(".", 9), ("..", 1)]⟩ : CIno).entries :=
  createM_dir_links ⟨T_DIR, 2, []⟩ 1 9 "d" ⟨T_DIR, 3, [("d", 9)]⟩
    ⟨T_DIR, 1, [(".", 9), ("..", 1)]⟩ (by decide)

/-- Claim C10: `ialloc` zeroes the whole on-disk `dinode` before setting
its type, so a freshly allocated inode has `nlink = 0`, `size = 0`,
`major = 0`, `minor = 0` and every `addrs` entry equal to 0 on disk. -/
theorem iallocM_zeroes (t : Nat) (tbl tbl' : List Dinode) (inum : Nat)
    (h : iallocM t tbl = some (inum, tbl')) :
    ∃ d, tbl'.get? inum = some d ∧ d.dtype = t ∧ d.nlink = 0 ∧ d.size = 0 ∧
      d.major = 0 ∧ d.minor = 0 ∧ d.addrs.length = NDIRECT + 2 ∧
      ∀ a ∈ d.addrs, a = 0 := by
  have go : ∀ (l : List Dinode) (i : Nat) (l' : List Dinode),
      iallocGo t l = some (i, l') →
      l'.get? i = some (freshDinode t) := by
    intro l
    induction l with
    | nil => intro i l' hh; simp [iallocGo] at hh
    | cons d rest ih =>
      intro i l' hh
      unfold iallocGo at hh
      by_cases hz : d.dtype = 0
      · rw [if_pos hz] at hh
        simp only [Option.some.injEq, Prod.mk.injEq] at hh
        obtain ⟨hi, hl⟩ := hh
        rw [← hi, ← hl]
        rfl
      · rw [if_neg hz] at hh
        cases hrec : iallocGo t rest with
        | none => rw [hrec] at hh; simp at hh
        | some pr =>
          obtain ⟨j, rest'⟩ := pr
          rw [hrec] at hh
          simp only [Option.map_some', Option.some.injEq, Prod.mk.injEq] at hh
          obtain ⟨hi, hl⟩ := hh
          rw [← hi, ← hl]
          simpa using ih j rest' hrec
  cases tbl with
  | nil => simp [iallocM] at h
  | cons d0 rest =>
    simp only [iallocM] at h
    cases hrec : iallocGo t rest with
    | none => rw [hrec] at h; simp at h
    | some pr =>
      obtain ⟨j, rest'⟩ := pr
      rw [hrec] at h
      simp only [Option.map_some', Option.some.injEq, Prod.mk.injEq] at h
      obtain ⟨hi, hl⟩ := h
      refine ⟨freshDinode t, ?_, rfl, rfl, rfl, rfl, rfl, by simp [freshDinode], ?_⟩
      · rw [← hi, ← hl]
        simpa using go rest j rest' hrec
      · intro a ha
        simpa using List.eq_of_mem_replicate ha

/-- Witness for C10: allocating in a two-inode table whose inode 1 is
free and whose previous contents were nonzero garbage. -/
theorem iallocM_zeroes_witness :
    ∃ d, ([⟨9, 9, 9, 9, 9, [5, 5]⟩,
            freshDinode T_FILE] : List Dinode).get? 1 = some d ∧
      d.dtype = T_FILE ∧ d.nlink = 0 ∧ d.size = 0 ∧ d.major = 0 ∧ d.minor = 0 ∧
      d.addrs.length = NDIRECT + 2 ∧ ∀ a ∈ d.addrs, a = 0 :=
  iallocM_zeroes T_FILE
    [⟨9, 9, 9, 9, 9, [5, 5]⟩, ⟨0, 1, 2, 3, 4, [5, 6]⟩]
    [⟨9, 9, 9, 9, 9, [5, 5]⟩, freshDinode T_FILE] 1 (by decide)

/-- Claim C6 (code bug in `bmap`): every control path of `bmap` returns
through one of the three block-map exits — for `bn ≥ NDIRECT +
NINDIRECT` the final `else` arm handles the block as doubly-indirect
regardless of how large `bn` is — so the trailing
`panic("bmap: out of range")` is unreachable.  In particular, at the
claim's failing input `bn = MAXFILE` the doubly-indirect arm is taken
and its outer index `(bn - NDIRECT - NINDIRECT) / NINDIRECT` equals
`NINDIRECT`, one past the last valid entry of the doubly-indirect
block: an out-of-bounds access instead of the panic the claim
requires. -/
theorem bmapExit_no_panic :
    (∀ bn, bmapExit bn = BmapExitPoint.directReturn ∨
      bmapExit bn = BmapExitPoint.singleReturn ∨
      bmapExit bn = BmapExitPoint.doubleReturn) ∧
    bmapExit MAXFILE = BmapExitPoint.doubleReturn ∧
    (MAXFILE - NDIRECT - NINDIRECT) / NINDIRECT = NINDIRECT := by
  refine ⟨?_, by decide, by decide⟩
  intro bn
  unfold bmapExit
  by_cases h1 : bn < NDIRECT
  · exact Or.inl (if_pos h1)
  · rw [if_neg h1]
    by_cases h2 : bn - NDIRECT < NINDIRECT
    · exact Or.inr (Or.inl (if_pos h2))
    · exact Or.inr (Or.inr (if_neg h2))

/-! # Basic computation lemmas for the content model -/

theorem upd_self (f : Nat → Nat) (k v : Nat) : upd f k v k = v := by
  simp [upd]

theorem upd_ne (f : Nat → Nat) (k v x : Nat) (h : x ≠ k) : upd f k v x = f x := by
  simp [upd, h]

theorem balloc_fst (s : FsState) : (balloc s).1 = s.stream s.ptr := rfl

theorem balloc_disk (s : FsState) (x c : Nat) :
    (balloc s).2.disk x c = if x = s.stream s.ptr then 0 else s.disk x c := rfl

theorem balloc_stream (s : FsState) : (balloc s).2.stream = s.stream := rfl

theorem balloc_ptr (s : FsState) : (balloc s).2.ptr = s.ptr + 1 := rfl

theorem setEnt_disk (s : FsState) (b j v x c : Nat) :
    (setEnt s b j v).disk x c = if x = b ∧ c = j then v else s.disk x c := rfl

theorem setEnt_stream (s : FsState) (b j v : Nat) :
    (setEnt s b j v).stream = s.stream := rfl

theorem setEnt_ptr (s : FsState) (b j v : Nat) : (setEnt s b j v).ptr = s.ptr := rfl

theorem writeBytes_disk (s : FsState) (b o : Nat) (f : Nat → Nat) (m x c : Nat) :
    (writeBytes s b o f m).disk x c =
      if x = b ∧ o ≤ c ∧ c < o + m then f (c - o) else s.disk x c := rfl

theorem writeBytes_stream (s : FsState) (b o : Nat) (f : Nat → Nat) (m : Nat) :
    (writeBytes s b o f m).stream = s.stream := rfl

theorem writeBytes_ptr (s : FsState) (b o : Nat) (f : Nat → Nat) (m : Nat) :
    (writeBytes s b o f m).ptr = s.ptr := rfl

theorem copyOut_in (dst : Nat → Nat) (a : Nat) (f : Nat → Nat) (m x : Nat)
    (h1 : a ≤ x) (h2 : x < a + m) : copyOut dst a f m x = f (x - a) := by
  simp [copyOut, h1, h2]

theorem copyOut_out (dst : Nat → Nat) (a : Nat) (f : Nat → Nat) (m x : Nat)
    (h : x < a ∨ a + m ≤ x) : copyOut dst a f m x = dst x := by
  rcases h with h | h <;> simp [copyOut] <;> omega

theorem roleAddr_data (s : FsState) (ip : Inode) (bn : Nat) :
    roleAddr s ip (Role.data bn) = dataAddr s ip bn := rfl

theorem roleAddr_ind (s : FsState) (ip : Inode) :
    roleAddr s ip Role.ind = ip.addrs NDIRECT := rfl

theorem roleAddr_dbl (s : FsState) (ip : Inode) :
    roleAddr s ip Role.dbl = ip.addrs (NDIRECT + 1) := rfl

theorem roleAddr_l2 (s : FsState) (ip : Inode) (j : Nat) :
    roleAddr s ip (Role.l2 j) =
      if ip.addrs (NDIRECT + 1) = 0 then 0 else s.disk (ip.addrs (NDIRECT + 1)) j := rfl

theorem RoleOk_data (bn : Nat) : RoleOk (Role.data bn) = (bn < MAXFILE) := rfl

theorem RoleOk_ind : RoleOk Role.ind = True := rfl

theorem RoleOk_dbl : RoleOk Role.dbl = True := rfl

theorem RoleOk_l2 (j : Nat) : RoleOk (Role.l2 j) = (j < NINDIRECT) := rfl

theorem dataAddr_direct (s : FsState) (ip : Inode) (bn : Nat) (h : bn < NDIRECT) :
    dataAddr s ip bn = ip.addrs bn := by
  simp [dataAddr, h]

theorem dataAddr_single (s : FsState) (ip : Inode) (bn : Nat)
    (h1 : ¬ bn < NDIRECT) (h2 : bn - NDIRECT < NINDIRECT) :
    dataAddr s ip bn =
      if ip.addrs NDIRECT = 0 then 0 else s.disk (ip.addrs NDIRECT) (bn - NDIRECT) := by
  simp [dataAddr, h1, h2]

theorem dataAddr_double (s : FsState) (ip : Inode) (bn : Nat)
    (h1 : ¬ bn < NDIRECT) (h2 : ¬ bn - NDIRECT < NINDIRECT) :
    dataAddr s ip bn =
      if ip.addrs (NDIRECT + 1) = 0 then 0
      else
        if s.disk (ip.addrs (NDIRECT + 1)) ((bn - NDIRECT - NINDIRECT) / NINDIRECT) = 0 then 0
        else s.disk (s.disk (ip.addrs (NDIRECT + 1)) ((bn - NDIRECT - NINDIRECT) / NINDIRECT))
          ((bn - NDIRECT - NINDIRECT) % NINDIRECT) := by
  simp [dataAddr, h1, h2]

/-- One allocate-or-keep step preserves the state invariant: the role
map changes at most at `r0`, to either a fresh block from the
allocation sequence or to its previous (nonzero) value. -/
theorem valid_step (s s' : FsState) (ip ip' : Inode) (r0 : Role) (v : Nat)
    (hV : Valid s ip) (hr0 : RoleOk r0)
    (hB : ∀ r, RoleOk r → roleAddr s' ip' r = if r = r0 then v else roleAddr s ip r)
    (hstream : s'.stream = s.stream)
    (hcase : (v = s.stream s.ptr ∧ s'.ptr = s.ptr + 1) ∨
             (v = roleAddr s ip r0 ∧ s'.ptr = s.ptr)) :
    Valid s' ip' := by
  have hple : s.ptr ≤ s'.ptr := by
    rcases hcase with ⟨_, hp⟩ | ⟨_, hp⟩ <;> omega
  constructor
  · intro r r' hr hr' hne hnz
    rw [hB r hr] at hnz ⊢
    rw [hB r' hr']
    rcases hcase with ⟨hv, _⟩ | ⟨hv, _⟩
    · by_cases h1 : r = r0
      · rw [if_pos h1] at hnz ⊢
        have h2 : r' ≠ r0 := fun he => hne (h1.trans he.symm)
        rw [if_neg h2, hv]
        exact hV.sFresh s.ptr r' le_rfl hr'
      · rw [if_neg h1] at hnz ⊢
        by_cases h2 : r' = r0
        · rw [if_pos h2, hv]
          exact fun he => hV.sFresh s.ptr r le_rfl hr he.symm
        · rw [if_neg h2]
          exact hV.inj r r' hr hr' hne hnz
    · by_cases h1 : r = r0
      · rw [if_pos h1, hv] at hnz ⊢
        have h2 : r' ≠ r0 := fun he => hne (h1.trans he.symm)
        rw [if_neg h2]
        exact hV.inj r0 r' hr0 hr' (fun he => h2 he.symm) hnz
      · rw [if_neg h1] at hnz ⊢
        by_cases h2 : r' = r0
        · rw [if_pos h2, hv]
          exact hV.inj r r0 hr hr0 (fun he => hne (he.trans h2.symm)) hnz
        · rw [if_neg h2]
          exact hV.inj r r' hr hr' hne hnz
  · intro i j hi hij
    rw [hstream]
    exact hV.sInj i j (le_trans hple hi) hij
  · intro i hi
    rw [hstream]
    exact hV.sNZ i (le_trans hple hi)
  · intro i r hi hr
    rw [hstream, hB r hr]
    rcases hcase with ⟨hv, hp⟩ | ⟨hv, hp⟩
    · by_cases h1 : r = r0
      · rw [if_pos h1, hv]
        exact fun he => hV.sInj s.ptr i le_rfl (by omega) he.symm
      · rw [if_neg h1]
        exact hV.sFresh i r (le_trans hple hi) hr
    · by_cases h1 : r = r0
      · rw [if_pos h1, hv]
        exact hV.sFresh i r0 (le_trans hple hi) hr0
      · rw [if_neg h1]
        exact hV.sFresh i r (le_trans hple hi) hr

theorem NINDIRECT_pos : 0 < NINDIRECT := by decide

theorem NDIRECT_eq : NDIRECT = 11 := rfl

theorem NINDIRECT_eq : NINDIRECT = 256 := by decide

theorem MAXFILE_eq : MAXFILE = 65803 := by decide

theorem BSIZE_eq : BSIZE = 1024 := rfl

theorem lt_MAXFILE_of_lt_NDIRECT (k : Nat) (h : k < NDIRECT) : k < MAXFILE :=
  lt_of_lt_of_le h (by decide)

theorem lt_MAXFILE_of_single (bn : Nat) (h : bn - NDIRECT < NINDIRECT) : bn < MAXFILE := by
  simp only [NDIRECT_eq, NINDIRECT_eq, MAXFILE_eq] at *
  omega

theorem outerIdx_lt (bn : Nat) (hbn : bn < MAXFILE) :
    (bn - NDIRECT - NINDIRECT) / NINDIRECT < NINDIRECT := by
  simp only [NDIRECT_eq, NINDIRECT_eq, MAXFILE_eq] at *
  omega

theorem innerIdx_lt (bn : Nat) : (bn - NDIRECT - NINDIRECT) % NINDIRECT < NINDIRECT :=
  Nat.mod_lt _ NINDIRECT_pos

theorem double_unique (bn bn' : Nat)
    (h1 : ¬ bn < NDIRECT) (h2 : ¬ bn - NDIRECT < NINDIRECT)
    (h1' : ¬ bn' < NDIRECT) (h2' : ¬ bn' - NDIRECT < NINDIRECT)
    (ho : (bn - NDIRECT - NINDIRECT) / NINDIRECT = (bn' - NDIRECT - NINDIRECT) / NINDIRECT)
    (hi : (bn - NDIRECT - NINDIRECT) % NINDIRECT = (bn' - NDIRECT - NINDIRECT) % NINDIRECT) :
    bn = bn' := by
  simp only [NDIRECT_eq, NINDIRECT_eq] at *
  omega

/-- Frame rule for `dataAddr`: the mapping of `bn` is unchanged as long
as the relevant `addrs` slots and the exact disk cells it reads are
unchanged. -/
theorem dataAddr_frame (s s' : FsState) (ip ip' : Inode) (bn : Nat)
    (hA0 : bn < NDIRECT → ip'.addrs bn = ip.addrs bn)
    (hA1 : ¬ bn < NDIRECT → bn - NDIRECT < NINDIRECT →
      ip'.addrs NDIRECT = ip.addrs NDIRECT)
    (hA2 : ¬ bn < NDIRECT → ¬ bn - NDIRECT < NINDIRECT →
      ip'.addrs (NDIRECT + 1) = ip.addrs (NDIRECT + 1))
    (hI : ¬ bn < NDIRECT → bn - NDIRECT < NINDIRECT → ip.addrs NDIRECT ≠ 0 →
      s'.disk (ip.addrs NDIRECT) (bn - NDIRECT) = s.disk (ip.addrs NDIRECT) (bn - NDIRECT))
    (hD : ¬ bn < NDIRECT → ¬ bn - NDIRECT < NINDIRECT → ip.addrs (NDIRECT + 1) ≠ 0 →
      s'.disk (ip.addrs (NDIRECT + 1)) ((bn - NDIRECT - NINDIRECT) / NINDIRECT) =
        s.disk (ip.addrs (NDIRECT + 1)) ((bn - NDIRECT - NINDIRECT) / NINDIRECT))
    (hL : ¬ bn < NDIRECT → ¬ bn - NDIRECT < NINDIRECT → ip.addrs (NDIRECT + 1) ≠ 0 →
      s.disk (ip.addrs (NDIRECT + 1)) ((bn - NDIRECT - NINDIRECT) / NINDIRECT) ≠ 0 →
      s'.disk (s.disk (ip.addrs (NDIRECT + 1)) ((bn - NDIRECT - NINDIRECT) / NINDIRECT))
          ((bn - NDIRECT - NINDIRECT) % NINDIRECT) =
        s.disk (s.disk (ip.addrs (NDIRECT + 1)) ((bn - NDIRECT - NINDIRECT) / NINDIRECT))
          ((bn - NDIRECT - NINDIRECT) % NINDIRECT)) :
    dataAddr s' ip' bn = dataAddr s ip bn := by
  unfold dataAddr
  by_cases h1 : bn < NDIRECT
  · rw [if_pos h1, if_pos h1, hA0 h1]
  · rw [if_neg h1, if_neg h1]
    by_cases h2 : bn - NDIRECT < NINDIRECT
    · rw [if_pos h2, if_pos h2, hA1 h1 h2]
      by_cases hz : ip.addrs NDIRECT = 0
      · rw [if_pos hz, if_pos hz]
      · rw [if_neg hz, if_neg hz, hI h1 h2 hz]
    · rw [if_neg h2, if_neg h2, hA2 h1 h2]
      by_cases hz : ip.addrs (NDIRECT + 1) = 0
      · rw [if_pos hz, if_pos hz]
      · simp only [if_neg hz]
        rw [hD h1 h2 hz]
        by_cases hl : s.disk (ip.addrs (NDIRECT + 1))
            ((bn - NDIRECT - NINDIRECT) / NINDIRECT) = 0
        · rw [if_pos hl, if_pos hl]
        · rw [if_neg hl, if_neg hl, hL h1 h2 hz hl]

theorem inode_upd_addrs (ip : Inode) (f : Nat → Nat) :
    ({ ip with addrs := f } : Inode).addrs = f := rfl

theorem inode_upd_size (ip : Inode) (f : Nat → Nat) :
    ({ ip with addrs := f } : Inode).size = ip.size := rfl

/-- `bmap`'s direct branch: `ensureAddr` on a slot `k < NDIRECT` yields
a nonzero block, now occupying role `data k`; every other role is
unchanged, the invariant is preserved, no other block's content
changes, and if the slot was already nonzero nothing happens at all. -/
theorem ensureAddr_direct_spec (s : FsState) (ip : Inode) (k : Nat)
    (hV : Valid s ip) (hk : k < NDIRECT) :
    ∃ v s' ip', ensureAddr s ip k = (v, s', ip') ∧ v ≠ 0 ∧
      (∀ r, RoleOk r → roleAddr s' ip' r =
        if r = Role.data k then v else roleAddr s ip r) ∧
      Valid s' ip' ∧
      (∀ x c, x ≠ v → s'.disk x c = s.disk x c) ∧
      ip'.size = ip.size ∧
      (ip.addrs k ≠ 0 → v = ip.addrs k ∧ s' = s ∧ ip' = ip) := by
  by_cases h0 : ip.addrs k = 0
  · have heq : ensureAddr s ip k =
        (s.stream s.ptr, (balloc s).2,
          { ip with addrs := upd ip.addrs k (s.stream s.ptr) }) := by
      unfold ensureAddr
      rw [if_pos h0]
      rfl
    have hfr : ∀ r, RoleOk r → s.stream s.ptr ≠ roleAddr s ip r :=
      fun r hr => hV.sFresh s.ptr r le_rfl hr
    have hfrInd : ip.addrs NDIRECT ≠ s.stream s.ptr :=
      fun he => hfr Role.ind trivial he.symm
    have hfrDbl : ip.addrs (NDIRECT + 1) ≠ s.stream s.ptr :=
      fun he => hfr Role.dbl trivial he.symm
    have hfrL2 : ∀ j, j < NINDIRECT → ip.addrs (NDIRECT + 1) ≠ 0 →
        s.disk (ip.addrs (NDIRECT + 1)) j ≠ s.stream s.ptr := by
      intro j hj hD he
      apply hfr (Role.l2 j) hj
      rw [roleAddr_l2, if_neg hD, he]
    have hndk : NDIRECT ≠ k := by omega
    have hndk1 : NDIRECT + 1 ≠ k := by omega
    have hB : ∀ r, RoleOk r →
        roleAddr (balloc s).2 { ip with addrs := upd ip.addrs k (s.stream s.ptr) } r =
          if r = Role.data k then s.stream s.ptr else roleAddr s ip r := by
      intro r hr
      cases r with
      | data bn' =>
        simp only [roleAddr_data, Role.data.injEq]
        by_cases hbk : bn' = k
        · rw [if_pos hbk, hbk, dataAddr_direct _ _ k hk, inode_upd_addrs]
          exact upd_self _ _ _
        · rw [if_neg hbk]
          apply dataAddr_frame
          · intro _
            rw [inode_upd_addrs]
            exact upd_ne _ _ _ _ hbk
          · intro _ _
            rw [inode_upd_addrs]
            exact upd_ne _ _ _ _ hndk
          · intro _ _
            rw [inode_upd_addrs]
            exact upd_ne _ _ _ _ hndk1
          · intro _ _ hz
            rw [balloc_disk, if_neg hfrInd]
          · intro _ _ hz
            rw [balloc_disk, if_neg hfrDbl]
          · intro h1 h2 hz hl
            rw [balloc_disk,
              if_neg (hfrL2 ((bn' - NDIRECT - NINDIRECT) / NINDIRECT) (outerIdx_lt bn' hr) hz)]
      | ind =>
        rw [if_neg (fun h => Role.noConfusion h), roleAddr_ind, roleAddr_ind,
          inode_upd_addrs]
        exact upd_ne _ _ _ _ hndk
      | dbl =>
        rw [if_neg (fun h => Role.noConfusion h), roleAddr_dbl, roleAddr_dbl,
          inode_upd_addrs]
        exact upd_ne _ _ _ _ hndk1
      | l2 j =>
        rw [if_neg (fun h => Role.noConfusion h), roleAddr_l2, roleAddr_l2,
          inode_upd_addrs, upd_ne _ _ _ _ hndk1]
        by_cases hz : ip.addrs (NDIRECT + 1) = 0
        · rw [if_pos hz, if_pos hz]
        · rw [if_neg hz, if_neg hz, balloc_disk, if_neg hfrDbl]
    refine ⟨s.stream s.ptr, (balloc s).2, _, heq, hV.sNZ s.ptr le_rfl, hB, ?_, ?_, rfl,
      fun hne => absurd h0 hne⟩
    · exact valid_step s (balloc s).2 ip _ (Role.data k) (s.stream s.ptr) hV
        (lt_MAXFILE_of_lt_NDIRECT k hk) hB rfl (Or.inl ⟨rfl, rfl⟩)
    · intro x c hx
      rw [balloc_disk, if_neg hx]
  · have heq : ensureAddr s ip k = (ip.addrs k, s, ip) := by
      unfold ensureAddr
      rw [if_neg h0]
    refine ⟨ip.addrs k, s, ip, heq, h0, ?_, hV, fun _ _ _ => rfl, rfl,
      fun _ => ⟨rfl, rfl, rfl⟩⟩
    intro r hr
    by_cases h1 : r = Role.data k
    · rw [if_pos h1, h1, roleAddr_data, dataAddr_direct s ip k hk]
    · rw [if_neg h1]

/-- `bmap`'s singly-indirect branch, first step: `ensureAddr` on slot
`NDIRECT` (the singly-indirect root).  A freshly allocated root is
zeroed, so no data mapping changes. -/
theorem ensureAddr_ind_spec (s : FsState) (ip : Inode) (hV : Valid s ip) :
    ∃ v s' ip', ensureAddr s ip NDIRECT = (v, s', ip') ∧ v ≠ 0 ∧
      (∀ r, RoleOk r → roleAddr s' ip' r =
        if r = Role.ind then v else roleAddr s ip r) ∧
      Valid s' ip' ∧
      (∀ x c, x ≠ v → s'.disk x c = s.disk x c) ∧
      ip'.size = ip.size ∧
      (ip.addrs NDIRECT ≠ 0 → v = ip.addrs NDIRECT ∧ s' = s ∧ ip' = ip) := by
  by_cases h0 : ip.addrs NDIRECT = 0
  · have heq : ensureAddr s ip NDIRECT =
        (s.stream s.ptr, (balloc s).2,
          { ip with addrs := upd ip.addrs NDIRECT (s.stream s.ptr) }) := by
      unfold ensureAddr
      rw [if_pos h0]
      rfl
    have hbNZ : s.stream s.ptr ≠ 0 := hV.sNZ s.ptr le_rfl
    have hfr : ∀ r, RoleOk r → s.stream s.ptr ≠ roleAddr s ip r :=
      fun r hr => hV.sFresh s.ptr r le_rfl hr
    have hfrDbl : ip.addrs (NDIRECT + 1) ≠ s.stream s.ptr :=
      fun he => hfr Role.dbl trivial he.symm
    have hfrL2 : ∀ j, j < NINDIRECT → ip.addrs (NDIRECT + 1) ≠ 0 →
        s.disk (ip.addrs (NDIRECT + 1)) j ≠ s.stream s.ptr := by
      intro j hj hD he
      apply hfr (Role.l2 j) hj
      rw [roleAddr_l2, if_neg hD, he]
    have hB : ∀ r, RoleOk r →
        roleAddr (balloc s).2 { ip with addrs := upd ip.addrs NDIRECT (s.stream s.ptr) } r =
          if r = Role.ind then s.stream s.ptr else roleAddr s ip r := by
      intro r hr
      cases r with
      | data bn' =>
        rw [if_neg (fun h => Role.noConfusion h), roleAddr_data, roleAddr_data]
        by_cases hd1 : bn' < NDIRECT
        · rw [dataAddr_direct _ _ _ hd1, dataAddr_direct _ _ _ hd1, inode_upd_addrs,
            upd_ne _ _ _ _ (by omega : bn' ≠ NDIRECT)]
        · by_cases hd2 : bn' - NDIRECT < NINDIRECT
          · rw [dataAddr_single _ _ _ hd1 hd2, dataAddr_single _ _ _ hd1 hd2,
              inode_upd_addrs, upd_self, if_pos h0, if_neg hbNZ, balloc_disk,
              if_pos rfl]
          · apply dataAddr_frame
            · intro h; exact absurd h hd1
            · intro _ h; exact absurd h hd2
            · intro _ _
              rw [inode_upd_addrs]
              exact upd_ne _ _ _ _ (by omega : NDIRECT + 1 ≠ NDIRECT)
            · intro _ h; exact absurd h hd2
            · intro _ _ hz
              rw [balloc_disk, if_neg hfrDbl]
            · intro _ _ hz hl
              rw [balloc_disk,
                if_neg (hfrL2 ((bn' - NDIRECT - NINDIRECT) / NINDIRECT)
                  (outerIdx_lt bn' hr) hz)]
      | ind =>
        rw [if_pos rfl, roleAddr_ind, inode_upd_addrs, upd_self]
      | dbl =>
        rw [if_neg (fun h => Role.noConfusion h), roleAddr_dbl, roleAddr_dbl,
          inode_upd_addrs]
        exact upd_ne _ _ _ _ (by omega : NDIRECT + 1 ≠ NDIRECT)
      | l2 j =>
        rw [if_neg (fun h => Role.noConfusion h), roleAddr_l2, roleAddr_l2,
          inode_upd_addrs, upd_ne _ _ _ _ (by omega : NDIRECT + 1 ≠ NDIRECT)]
        by_cases hz : ip.addrs (NDIRECT + 1) = 0
        · rw [if_pos hz, if_pos hz]
        · rw [if_neg hz, if_neg hz, balloc_disk, if_neg hfrDbl]
    refine ⟨s.stream s.ptr, (balloc s).2, _, heq, hbNZ, hB, ?_, ?_, rfl,
      fun hne => absurd h0 hne⟩
    · exact valid_step s (balloc s).2 ip _ Role.ind (s.stream s.ptr) hV
        trivial hB rfl (Or.inl ⟨rfl, rfl⟩)
    · intro x c hx
      rw [balloc_disk, if_neg hx]
  · have heq : ensureAddr s ip NDIRECT = (ip.addrs NDIRECT, s, ip) := by
      unfold ensureAddr
      rw [if_neg h0]
    refine ⟨ip.addrs NDIRECT, s, ip, heq, h0, ?_, hV, fun _ _ _ => rfl, rfl,
      fun _ => ⟨rfl, rfl, rfl⟩⟩
    intro r hr
    by_cases h1 : r = Role.ind
    · rw [if_pos h1, h1, roleAddr_ind]
    · rw [if_neg h1]

/-- `bmap`'s doubly-indirect branch, first step: `ensureAddr` on slot
`NDIRECT + 1` (the doubly-indirect root). -/
theorem ensureAddr_dbl_spec (s : FsState) (ip : Inode) (hV : Valid s ip) :
    ∃ v s' ip', ensureAddr s ip (NDIRECT + 1) = (v, s', ip') ∧ v ≠ 0 ∧
      (∀ r, RoleOk r → roleAddr s' ip' r =
        if r = Role.dbl then v else roleAddr s ip r) ∧
      Valid s' ip' ∧
      (∀ x c, x ≠ v → s'.disk x c = s.disk x c) ∧
      ip'.size = ip.size ∧
      (ip.addrs (NDIRECT + 1) ≠ 0 → v = ip.addrs (NDIRECT + 1) ∧ s' = s ∧ ip' = ip) := by
  by_cases h0 : ip.addrs (NDIRECT + 1) = 0
  · have heq : ensureAddr s ip (NDIRECT + 1) =
        (s.stream s.ptr, (balloc s).2,
          { ip with addrs := upd ip.addrs (NDIRECT + 1) (s.stream s.ptr) }) := by
      unfold ensureAddr
      rw [if_pos h0]
      rfl
    have hbNZ : s.stream s.ptr ≠ 0 := hV.sNZ s.ptr le_rfl
    have hfr : ∀ r, RoleOk r → s.stream s.ptr ≠ roleAddr s ip r :=
      fun r hr => hV.sFresh s.ptr r le_rfl hr
    have hfrInd : ip.addrs NDIRECT ≠ s.stream s.ptr :=
      fun he => hfr Role.ind trivial he.symm
    have hB : ∀ r, RoleOk r →
        roleAddr (balloc s).2
            { ip with addrs := upd ip.addrs (NDIRECT + 1) (s.stream s.ptr) } r =
          if r = Role.dbl then s.stream s.ptr else roleAddr s ip r := by
      intro r hr
      cases r with
      | data bn' =>
        rw [if_neg (fun h => Role.noConfusion h), roleAddr_data, roleAddr_data]
        by_cases hd1 : bn' < NDIRECT
        · rw [dataAddr_direct _ _ _ hd1, dataAddr_direct _ _ _ hd1, inode_upd_addrs,
            upd_ne _ _ _ _ (by omega : bn' ≠ NDIRECT + 1)]
        · by_cases hd2 : bn' - NDIRECT < NINDIRECT
          · apply dataAddr_frame
            · intro h; exact absurd h hd1
            · intro _ _
              rw [inode_upd_addrs]
              exact upd_ne _ _ _ _ (by omega : NDIRECT ≠ NDIRECT + 1)
            · intro _ h; exact absurd hd2 h
            · intro _ _ hz
              rw [balloc_disk, if_neg hfrInd]
            · intro _ h; exact absurd hd2 h
            · intro _ h; exact absurd hd2 h
          · rw [dataAddr_double _ _ _ hd1 hd2, dataAddr_double _ _ _ hd1 hd2,
              inode_upd_addrs, upd_self, if_pos h0, if_neg hbNZ, balloc_disk,
              if_pos rfl, if_pos rfl]
      | ind =>
        rw [if_neg (fun h => Role.noConfusion h), roleAddr_ind, roleAddr_ind,
          inode_upd_addrs]
        exact upd_ne _ _ _ _ (by omega : NDIRECT ≠ NDIRECT + 1)
      | dbl =>
        rw [if_pos rfl, roleAddr_dbl, inode_upd_addrs, upd_self]
      | l2 j =>
        rw [if_neg (fun h => Role.noConfusion h), roleAddr_l2, roleAddr_l2,
          inode_upd_addrs, upd_self, if_pos h0, if_neg hbNZ, balloc_disk, if_pos rfl]
    refine ⟨s.stream s.ptr, (balloc s).2, _, heq, hbNZ, hB, ?_, ?_, rfl,
      fun hne => absurd h0 hne⟩
    · exact valid_step s (balloc s).2 ip _ Role.dbl (s.stream s.ptr) hV
        trivial hB rfl (Or.inl ⟨rfl, rfl⟩)
    · intro x c hx
      rw [balloc_disk, if_neg hx]
  · have heq : ensureAddr s ip (NDIRECT + 1) = (ip.addrs (NDIRECT + 1), s, ip) := by
      unfold ensureAddr
      rw [if_neg h0]
    refine ⟨ip.addrs (NDIRECT + 1), s, ip, heq, h0, ?_, hV, fun _ _ _ => rfl, rfl,
      fun _ => ⟨rfl, rfl, rfl⟩⟩
    intro r hr
    by_cases h1 : r = Role.dbl
    · rw [if_pos h1, h1, roleAddr_dbl]
    · rw [if_neg h1]

/-- `bmap`'s singly-indirect branch, second step: `ensureEnt` on entry
`bn1` of the (nonzero) singly-indirect block establishes the mapping of
logical block `NDIRECT + bn1`. -/
theorem ensureEnt_single_spec (s : FsState) (ip : Inode) (bn1 : Nat)
    (hV : Valid s ip) (hbn1 : bn1 < NINDIRECT) (hI1 : ip.addrs NDIRECT ≠ 0) :
    ∃ v s', ensureEnt s (ip.addrs NDIRECT) bn1 = (v, s') ∧ v ≠ 0 ∧
      (∀ r, RoleOk r → roleAddr s' ip r =
        if r = Role.data (NDIRECT + bn1) then v else roleAddr s ip r) ∧
      Valid s' ip ∧
      (∀ bn', bn' < MAXFILE → dataAddr s ip bn' ≠ 0 →
        ∀ c, s'.disk (dataAddr s ip bn') c = s.disk (dataAddr s ip bn') c) ∧
      (s.disk (ip.addrs NDIRECT) bn1 ≠ 0 →
        v = s.disk (ip.addrs NDIRECT) bn1 ∧ s' = s) := by
  have htgt : NDIRECT + bn1 < MAXFILE :=
    lt_MAXFILE_of_single (NDIRECT + bn1) (by omega)
  have harith : NDIRECT + bn1 - NDIRECT = bn1 := by omega
  by_cases h0 : s.disk (ip.addrs NDIRECT) bn1 = 0
  · have heq : ensureEnt s (ip.addrs NDIRECT) bn1 =
        (s.stream s.ptr, setEnt (balloc s).2 (ip.addrs NDIRECT) bn1 (s.stream s.ptr)) := by
      unfold ensureEnt
      rw [if_pos h0]
      rfl
    have hbNZ : s.stream s.ptr ≠ 0 := hV.sNZ s.ptr le_rfl
    have hfr : ∀ r, RoleOk r → s.stream s.ptr ≠ roleAddr s ip r :=
      fun r hr => hV.sFresh s.ptr r le_rfl hr
    have hfrInd : ip.addrs NDIRECT ≠ s.stream s.ptr :=
      fun he => hfr Role.ind trivial he.symm
    have hfrDbl : ip.addrs (NDIRECT + 1) ≠ s.stream s.ptr :=
      fun he => hfr Role.dbl trivial he.symm
    have hfrL2 : ∀ j, j < NINDIRECT → ip.addrs (NDIRECT + 1) ≠ 0 →
        s.disk (ip.addrs (NDIRECT + 1)) j ≠ s.stream s.ptr := by
      intro j hj hDz he
      apply hfr (Role.l2 j) hj
      rw [roleAddr_l2, if_neg hDz, he]
    have hIDbl : ip.addrs NDIRECT ≠ ip.addrs (NDIRECT + 1) :=
      hV.inj Role.ind Role.dbl trivial trivial (fun h => Role.noConfusion h) hI1
    have hL2Ind : ∀ j, j < NINDIRECT → ip.addrs (NDIRECT + 1) ≠ 0 →
        s.disk (ip.addrs (NDIRECT + 1)) j ≠ 0 →
        s.disk (ip.addrs (NDIRECT + 1)) j ≠ ip.addrs NDIRECT := by
      intro j hj hDz hlz
      have := hV.inj (Role.l2 j) Role.ind hj trivial (fun h => Role.noConfusion h)
        (by rw [roleAddr_l2, if_neg hDz]; exact hlz)
      rw [roleAddr_l2, if_neg hDz] at this
      exact this
    have hdisk : ∀ x c,
        (setEnt (balloc s).2 (ip.addrs NDIRECT) bn1 (s.stream s.ptr)).disk x c =
          if x = ip.addrs NDIRECT ∧ c = bn1 then s.stream s.ptr
          else if x = s.stream s.ptr then 0 else s.disk x c := by
      intro x c
      rw [setEnt_disk]
      by_cases hc : x = ip.addrs NDIRECT ∧ c = bn1
      · rw [if_pos hc, if_pos hc]
      · rw [if_neg hc, if_neg hc, balloc_disk]
    have hB : ∀ r, RoleOk r →
        roleAddr (setEnt (balloc s).2 (ip.addrs NDIRECT) bn1 (s.stream s.ptr)) ip r =
          if r = Role.data (NDIRECT + bn1) then s.stream s.ptr else roleAddr s ip r := by
      intro r hr
      cases r with
      | data bn' =>
        simp only [roleAddr_data, Role.data.injEq]
        by_cases hbk : bn' = NDIRECT + bn1
        · rw [if_pos hbk, hbk, dataAddr_single _ _ _ (by omega) (by omega : NDIRECT + bn1 - NDIRECT < NINDIRECT),
            if_neg hI1, harith, hdisk, if_pos ⟨rfl, rfl⟩]
        · rw [if_neg hbk]
          by_cases hd1 : bn' < NDIRECT
          · rw [dataAddr_direct _ _ _ hd1, dataAddr_direct _ _ _ hd1]
          · apply dataAddr_frame
            · intro h; exact absurd h hd1
            · intro _ _; rfl
            · intro _ _; rfl
            · intro _ hd2 hz
              rw [hdisk, if_neg (fun hc => hbk (by omega)), if_neg hfrInd]
            · intro _ hd2 hz
              rw [hdisk,
                if_neg (fun hc => hIDbl (hc.1.symm)), if_neg hfrDbl]
            · intro _ hd2 hz hl
              rw [hdisk,
                if_neg (fun hc =>
                  hL2Ind ((bn' - NDIRECT - NINDIRECT) / NINDIRECT)
                    (outerIdx_lt bn' hr) hz hl hc.1),
                if_neg (hfrL2 ((bn' - NDIRECT - NINDIRECT) / NINDIRECT)
                  (outerIdx_lt bn' hr) hz)]
      | ind =>
        rw [if_neg (fun h => Role.noConfusion h), roleAddr_ind, roleAddr_ind]
      | dbl =>
        rw [if_neg (fun h => Role.noConfusion h), roleAddr_dbl, roleAddr_dbl]
      | l2 j =>
        rw [if_neg (fun h => Role.noConfusion h), roleAddr_l2, roleAddr_l2]
        by_cases hz : ip.addrs (NDIRECT + 1) = 0
        · rw [if_pos hz, if_pos hz]
        · rw [if_neg hz, if_neg hz, hdisk,
            if_neg (fun hc => hIDbl hc.1.symm), if_neg hfrDbl]
    refine ⟨s.stream s.ptr, _, heq, hbNZ, hB, ?_, ?_, fun hne => absurd h0 hne⟩
    · exact valid_step s _ ip ip (Role.data (NDIRECT + bn1)) (s.stream s.ptr) hV
        htgt hB rfl (Or.inl ⟨rfl, rfl⟩)
    · intro bn' hbn' hw c
      rw [hdisk,
        if_neg (fun hc => (hV.inj (Role.data bn') Role.ind hbn' trivial
          (fun h => Role.noConfusion h) hw) hc.1),
        if_neg (fun hc => hfr (Role.data bn') hbn' hc.symm)]
  · have heq : ensureEnt s (ip.addrs NDIRECT) bn1 =
        (s.disk (ip.addrs NDIRECT) bn1, s) := by
      unfold ensureEnt
      rw [if_neg h0]
    refine ⟨s.disk (ip.addrs NDIRECT) bn1, s, heq, h0, ?_, hV,
      fun _ _ _ _ => rfl, fun _ => ⟨rfl, rfl⟩⟩
    intro r hr
    by_cases h1 : r = Role.data (NDIRECT + bn1)
    · rw [if_pos h1, h1, roleAddr_data,
        dataAddr_single _ _ _ (by omega) (by omega : NDIRECT + bn1 - NDIRECT < NINDIRECT),
        if_neg hI1, harith]
    · rw [if_neg h1]

/-- `bmap`'s doubly-indirect branch, second step: `ensureEnt` on entry
`oi` of the (nonzero) doubly-indirect root installs the `oi`-th
second-level indirect block.  A freshly allocated second-level block is
zeroed, so no data mapping changes. -/
theorem ensureEnt_l2_spec (s : FsState) (ip : Inode) (oi : Nat)
    (hV : Valid s ip) (hoi : oi < NINDIRECT) (hD : ip.addrs (NDIRECT + 1) ≠ 0) :
    ∃ v s', ensureEnt s (ip.addrs (NDIRECT + 1)) oi = (v, s') ∧ v ≠ 0 ∧
      (∀ r, RoleOk r → roleAddr s' ip r =
        if r = Role.l2 oi then v else roleAddr s ip r) ∧
      Valid s' ip ∧
      (∀ bn', bn' < MAXFILE → dataAddr s ip bn' ≠ 0 →
        ∀ c, s'.disk (dataAddr s ip bn') c = s.disk (dataAddr s ip bn') c) ∧
      (s.disk (ip.addrs (NDIRECT + 1)) oi ≠ 0 →
        v = s.disk (ip.addrs (NDIRECT + 1)) oi ∧ s' = s) := by
  by_cases h0 : s.disk (ip.addrs (NDIRECT + 1)) oi = 0
  · have heq : ensureEnt s (ip.addrs (NDIRECT + 1)) oi =
        (s.stream s.ptr,
          setEnt (balloc s).2 (ip.addrs (NDIRECT + 1)) oi (s.stream s.ptr)) := by
      unfold ensureEnt
      rw [if_pos h0]
      rfl
    have hbNZ : s.stream s.ptr ≠ 0 := hV.sNZ s.ptr le_rfl
    have hfr : ∀ r, RoleOk r → s.stream s.ptr ≠ roleAddr s ip r :=
      fun r hr => hV.sFresh s.ptr r le_rfl hr
    have hfrInd : ip.addrs NDIRECT ≠ s.stream s.ptr :=
      fun he => hfr Role.ind trivial he.symm
    have hfrDbl : ip.addrs (NDIRECT + 1) ≠ s.stream s.ptr :=
      fun he => hfr Role.dbl trivial he.symm
    have hfrL2 : ∀ j, j < NINDIRECT →
        s.disk (ip.addrs (NDIRECT + 1)) j ≠ s.stream s.ptr := by
      intro j hj he
      apply hfr (Role.l2 j) hj
      rw [roleAddr_l2, if_neg hD, he]
    have hIndDbl : ip.addrs NDIRECT ≠ 0 → ip.addrs NDIRECT ≠ ip.addrs (NDIRECT + 1) :=
      fun hz => hV.inj Role.ind Role.dbl trivial trivial (fun h => Role.noConfusion h) hz
    have hL2Dbl : ∀ j, j < NINDIRECT → s.disk (ip.addrs (NDIRECT + 1)) j ≠ 0 →
        s.disk (ip.addrs (NDIRECT + 1)) j ≠ ip.addrs (NDIRECT + 1) := by
      intro j hj hlz
      have := hV.inj (Role.l2 j) Role.dbl hj trivial (fun h => Role.noConfusion h)
        (by rw [roleAddr_l2, if_neg hD]; exact hlz)
      rw [roleAddr_l2, if_neg hD] at this
      exact this
    have hdisk : ∀ x c,
        (setEnt (balloc s).2 (ip.addrs (NDIRECT + 1)) oi (s.stream s.ptr)).disk x c =
          if x = ip.addrs (NDIRECT + 1) ∧ c = oi then s.stream s.ptr
          else if x = s.stream s.ptr then 0 else s.disk x c := by
      intro x c
      rw [setEnt_disk]
      by_cases hc : x = ip.addrs (NDIRECT + 1) ∧ c = oi
      · rw [if_pos hc, if_pos hc]
      · rw [if_neg hc, if_neg hc, balloc_disk]
    have hB : ∀ r, RoleOk r →
        roleAddr (setEnt (balloc s).2 (ip.addrs (NDIRECT + 1)) oi (s.stream s.ptr)) ip r =
          if r = Role.l2 oi then s.stream s.ptr else roleAddr s ip r := by
      intro r hr
      cases r with
      | data bn' =>
        rw [if_neg (fun h => Role.noConfusion h), roleAddr_data, roleAddr_data]
        by_cases hd1 : bn' < NDIRECT
        · rw [dataAddr_direct _ _ _ hd1, dataAddr_direct _ _ _ hd1]
        · by_cases hd2 : bn' - NDIRECT < NINDIRECT
          · apply dataAddr_frame
            · intro h; exact absurd h hd1
            · intro _ _; rfl
            · intro _ h; exact absurd hd2 h
            · intro _ _ hz
              rw [hdisk, if_neg (fun hc => hIndDbl hz hc.1), if_neg hfrInd]
            · intro _ h _; exact absurd hd2 h
            · intro _ h _; exact absurd hd2 h
          · by_cases hout : (bn' - NDIRECT - NINDIRECT) / NINDIRECT = oi
            · have hDoi : (setEnt (balloc s).2 (ip.addrs (NDIRECT + 1)) oi
                  (s.stream s.ptr)).disk (ip.addrs (NDIRECT + 1)) oi = s.stream s.ptr := by
                rw [hdisk, if_pos ⟨rfl, rfl⟩]
              have hbii : ∀ c, (setEnt (balloc s).2 (ip.addrs (NDIRECT + 1)) oi
                  (s.stream s.ptr)).disk (s.stream s.ptr) c = 0 := by
                intro c
                rw [hdisk, if_neg (fun hc => hfrDbl hc.1.symm), if_pos rfl]
              rw [dataAddr_double _ _ _ hd1 hd2, dataAddr_double _ _ _ hd1 hd2,
                if_neg hD, if_neg hD, hout, h0, if_pos (rfl : (0 : Nat) = 0),
                hDoi, if_neg hbNZ]
              exact hbii _
            · apply dataAddr_frame
              · intro h; exact absurd h hd1
              · intro _ h; exact absurd h hd2
              · intro _ _; rfl
              · intro _ h _; exact absurd h hd2
              · intro _ _ hz
                rw [hdisk, if_neg (fun hc => hout hc.2), if_neg hfrDbl]
              · intro _ _ hz hl
                rw [hdisk,
                  if_neg (fun hc =>
                    hL2Dbl ((bn' - NDIRECT - NINDIRECT) / NINDIRECT)
                      (outerIdx_lt bn' hr) hl hc.1),
                  if_neg (hfrL2 ((bn' - NDIRECT - NINDIRECT) / NINDIRECT)
                    (outerIdx_lt bn' hr))]
      | ind =>
        rw [if_neg (fun h => Role.noConfusion h), roleAddr_ind, roleAddr_ind]
      | dbl =>
        rw [if_neg (fun h => Role.noConfusion h), roleAddr_dbl, roleAddr_dbl]
      | l2 j =>
        simp only [roleAddr_l2, Role.l2.injEq]
        by_cases hj : j = oi
        · rw [if_pos hj, hj, if_neg hD, hdisk, if_pos ⟨rfl, rfl⟩]
        · rw [if_neg hj, if_neg hD, if_neg hD, hdisk,
            if_neg (fun hc => hj hc.2), if_neg hfrDbl]
    refine ⟨s.stream s.ptr, _, heq, hbNZ, hB, ?_, ?_, fun hne => absurd h0 hne⟩
    · exact valid_step s _ ip ip (Role.l2 oi) (s.stream s.ptr) hV
        hoi hB rfl (Or.inl ⟨rfl, rfl⟩)
    · intro bn' hbn' hw c
      rw [hdisk,
        if_neg (fun hc => (hV.inj (Role.data bn') Role.dbl hbn' trivial
          (fun h => Role.noConfusion h) hw) hc.1),
        if_neg (fun hc => hfr (Role.data bn') hbn' hc.symm)]
  · have heq : ensureEnt s (ip.addrs (NDIRECT + 1)) oi =
        (s.disk (ip.addrs (NDIRECT + 1)) oi, s) := by
      unfold ensureEnt
      rw [if_neg h0]
    refine ⟨s.disk (ip.addrs (NDIRECT + 1)) oi, s, heq, h0, ?_, hV,
      fun _ _ _ _ => rfl, fun _ => ⟨rfl, rfl⟩⟩
    intro r hr
    by_cases h1 : r = Role.l2 oi
    · rw [if_pos h1, h1, roleAddr_l2, if_neg hD]
    · rw [if_neg h1]

/-- `bmap`'s doubly-indirect branch, third step: `ensureEnt` on entry
`ii` of the (nonzero) second-level indirect block establishes the
mapping of logical block `bn`. -/
theorem ensureEnt_dleaf_spec (s : FsState) (ip : Inode) (bn oi ii : Nat)
    (hV : Valid s ip) (hbn : bn < MAXFILE)
    (h1 : ¬ bn < NDIRECT) (h2 : ¬ bn - NDIRECT < NINDIRECT)
    (hoieq : oi = (bn - NDIRECT - NINDIRECT) / NINDIRECT)
    (hiieq : ii = (bn - NDIRECT - NINDIRECT) % NINDIRECT)
    (hD : ip.addrs (NDIRECT + 1) ≠ 0)
    (hl1 : s.disk (ip.addrs (NDIRECT + 1)) oi ≠ 0) :
    ∃ v s', ensureEnt s (s.disk (ip.addrs (NDIRECT + 1)) oi) ii = (v, s') ∧ v ≠ 0 ∧
      (∀ r, RoleOk r → roleAddr s' ip r =
        if r = Role.data bn then v else roleAddr s ip r) ∧
      Valid s' ip ∧
      (∀ bn', bn' < MAXFILE → dataAddr s ip bn' ≠ 0 →
        ∀ c, s'.disk (dataAddr s ip bn') c = s.disk (dataAddr s ip bn') c) ∧
      (dataAddr s ip bn ≠ 0 → v = dataAddr s ip bn ∧ s' = s) := by
  have hoi : oi < NINDIRECT := by rw [hoieq]; exact outerIdx_lt bn hbn
  have hda : dataAddr s ip bn = s.disk (s.disk (ip.addrs (NDIRECT + 1)) oi) ii := by
    rw [dataAddr_double _ _ _ h1 h2, if_neg hD, ← hoieq, if_neg hl1, ← hiieq]
  have hroleL : roleAddr s ip (Role.l2 oi) = s.disk (ip.addrs (NDIRECT + 1)) oi := by
    rw [roleAddr_l2, if_neg hD]
  by_cases h0 : s.disk (s.disk (ip.addrs (NDIRECT + 1)) oi) ii = 0
  · have heq : ensureEnt s (s.disk (ip.addrs (NDIRECT + 1)) oi) ii =
        (s.stream s.ptr,
          setEnt (balloc s).2 (s.disk (ip.addrs (NDIRECT + 1)) oi) ii (s.stream s.ptr)) := by
      unfold ensureEnt
      rw [if_pos h0]
      rfl
    have hbNZ : s.stream s.ptr ≠ 0 := hV.sNZ s.ptr le_rfl
    have hfr : ∀ r, RoleOk r → s.stream s.ptr ≠ roleAddr s ip r :=
      fun r hr => hV.sFresh s.ptr r le_rfl hr
    have hfrInd : ip.addrs NDIRECT ≠ s.stream s.ptr :=
      fun he => hfr Role.ind trivial he.symm
    have hfrDbl : ip.addrs (NDIRECT + 1) ≠ s.stream s.ptr :=
      fun he => hfr Role.dbl trivial he.symm
    have hfrL2 : ∀ j, j < NINDIRECT →
        s.disk (ip.addrs (NDIRECT + 1)) j ≠ s.stream s.ptr := by
      intro j hj he
      apply hfr (Role.l2 j) hj
      rw [roleAddr_l2, if_neg hD, he]
    have hLInd : ip.addrs NDIRECT ≠ 0 →
        ip.addrs NDIRECT ≠ s.disk (ip.addrs (NDIRECT + 1)) oi := by
      intro hz
      have := hV.inj Role.ind (Role.l2 oi) trivial hoi (fun h => Role.noConfusion h) hz
      rw [hroleL] at this
      exact this
    have hLDbl : ip.addrs (NDIRECT + 1) ≠ s.disk (ip.addrs (NDIRECT + 1)) oi := by
      have := hV.inj Role.dbl (Role.l2 oi) trivial hoi (fun h => Role.noConfusion h) hD
      rw [hroleL] at this
      exact this
    have hLL : ∀ j, j < NINDIRECT → j ≠ oi → s.disk (ip.addrs (NDIRECT + 1)) j ≠ 0 →
        s.disk (ip.addrs (NDIRECT + 1)) j ≠ s.disk (ip.addrs (NDIRECT + 1)) oi := by
      intro j hj hne hz
      have := hV.inj (Role.l2 j) (Role.l2 oi) hj hoi
        (fun h => hne (by injection h)) (by rw [roleAddr_l2, if_neg hD]; exact hz)
      rw [hroleL, roleAddr_l2, if_neg hD] at this
      exact this
    have hLdata : ∀ bn'', bn'' < MAXFILE → dataAddr s ip bn'' ≠ 0 →
        dataAddr s ip bn'' ≠ s.disk (ip.addrs (NDIRECT + 1)) oi := by
      intro bn'' hb hz
      have := hV.inj (Role.data bn'') (Role.l2 oi) hb hoi
        (fun h => Role.noConfusion h) hz
      rw [hroleL] at this
      exact this
    have hdisk : ∀ x c,
        (setEnt (balloc s).2 (s.disk (ip.addrs (NDIRECT + 1)) oi) ii
            (s.stream s.ptr)).disk x c =
          if x = s.disk (ip.addrs (NDIRECT + 1)) oi ∧ c = ii then s.stream s.ptr
          else if x = s.stream s.ptr then 0 else s.disk x c := by
      intro x c
      rw [setEnt_disk]
      by_cases hc : x = s.disk (ip.addrs (NDIRECT + 1)) oi ∧ c = ii
      · rw [if_pos hc, if_pos hc]
      · rw [if_neg hc, if_neg hc, balloc_disk]
    have hB : ∀ r, RoleOk r →
        roleAddr (setEnt (balloc s).2 (s.disk (ip.addrs (NDIRECT + 1)) oi) ii
            (s.stream s.ptr)) ip r =
          if r = Role.data bn then s.stream s.ptr else roleAddr s ip r := by
      intro r hr
      cases r with
      | data bn' =>
        have hDoi : (setEnt (balloc s).2 (s.disk (ip.addrs (NDIRECT + 1)) oi) ii
            (s.stream s.ptr)).disk (ip.addrs (NDIRECT + 1)) oi =
            s.disk (ip.addrs (NDIRECT + 1)) oi := by
          rw [hdisk, if_neg (fun hc => hLDbl hc.1), if_neg hfrDbl]
        have hLii : (setEnt (balloc s).2 (s.disk (ip.addrs (NDIRECT + 1)) oi) ii
            (s.stream s.ptr)).disk (s.disk (ip.addrs (NDIRECT + 1)) oi) ii =
            s.stream s.ptr := by
          rw [hdisk, if_pos ⟨rfl, rfl⟩]
        simp only [roleAddr_data, Role.data.injEq]
        by_cases hbk : bn' = bn
        · rw [if_pos hbk, hbk, dataAddr_double _ _ _ h1 h2, if_neg hD, ← hoieq,
            ← hiieq, hDoi, if_neg hl1, hLii]
        · rw [if_neg hbk]
          by_cases hd1 : bn' < NDIRECT
          · rw [dataAddr_direct _ _ _ hd1, dataAddr_direct _ _ _ hd1]
          · by_cases hd2 : bn' - NDIRECT < NINDIRECT
            · apply dataAddr_frame
              · intro h; exact absurd h hd1
              · intro _ _; rfl
              · intro _ h; exact absurd hd2 h
              · intro _ _ hz
                rw [hdisk, if_neg (fun hc => hLInd hz hc.1), if_neg hfrInd]
              · intro _ h _; exact absurd hd2 h
              · intro _ h _; exact absurd hd2 h
            · apply dataAddr_frame
              · intro h; exact absurd h hd1
              · intro _ h; exact absurd h hd2
              · intro _ _; rfl
              · intro _ h _; exact absurd h hd2
              · intro _ _ hz
                rw [hdisk, if_neg (fun hc => hLDbl hc.1), if_neg hfrDbl]
              · intro _ _ hz hl
                by_cases hoi' : (bn' - NDIRECT - NINDIRECT) / NINDIRECT = oi
                · have hii' : (bn' - NDIRECT - NINDIRECT) % NINDIRECT ≠ ii := by
                    intro hc
                    exact hbk (double_unique bn' bn hd1 hd2 h1 h2
                      (by rw [hoi', hoieq]) (by rw [hc, hiieq]))
                  rw [hdisk, hoi',
                    if_neg (fun hc => hii' hc.2),
                    if_neg (hfrL2 oi hoi)]
                · rw [hdisk,
                    if_neg (fun hc =>
                      hLL ((bn' - NDIRECT - NINDIRECT) / NINDIRECT)
                        (outerIdx_lt bn' hr) hoi' hl hc.1),
                    if_neg (hfrL2 ((bn' - NDIRECT - NINDIRECT) / NINDIRECT)
                      (outerIdx_lt bn' hr))]
      | ind =>
        rw [if_neg (fun h => Role.noConfusion h), roleAddr_ind, roleAddr_ind]
      | dbl =>
        rw [if_neg (fun h => Role.noConfusion h), roleAddr_dbl, roleAddr_dbl]
      | l2 j =>
        rw [if_neg (fun h => Role.noConfusion h), roleAddr_l2, roleAddr_l2,
          if_neg hD, if_neg hD, hdisk, if_neg (fun hc => hLDbl hc.1), if_neg hfrDbl]
    refine ⟨s.stream s.ptr, _, heq, hbNZ, hB, ?_, ?_,
      fun hne => absurd (hda.trans h0) hne⟩
    · exact valid_step s _ ip ip (Role.data bn) (s.stream s.ptr) hV
        hbn hB rfl (Or.inl ⟨rfl, rfl⟩)
    · intro bn' hbn' hw c
      rw [hdisk, if_neg (fun hc => hLdata bn' hbn' hw hc.1),
        if_neg (fun hc => hfr (Role.data bn') hbn' hc.symm)]
  · have heq : ensureEnt s (s.disk (ip.addrs (NDIRECT + 1)) oi) ii =
        (s.disk (s.disk (ip.addrs (NDIRECT + 1)) oi) ii, s) := by
      unfold ensureEnt
      rw [if_neg h0]
    refine ⟨s.disk (s.disk (ip.addrs (NDIRECT + 1)) oi) ii, s, heq, h0, ?_, hV,
      fun _ _ _ _ => rfl, fun _ => ⟨hda.symm, rfl⟩⟩
    intro r hr
    by_cases hh : r = Role.data bn
    · rw [if_pos hh, hh, roleAddr_data, hda]
    · rw [if_neg hh]

/-- Full specification of `bmap`: under the state invariant it returns
a nonzero block now backing logical block `bn`; all other logical
blocks keep their backing block; the invariant is preserved; contents
of previously mapped blocks are untouched; the inode's size is
untouched; and if `bn` was already mapped, nothing changes at all. -/
theorem bmap_spec (s : FsState) (ip : Inode) (bn : Nat)
    (hV : Valid s ip) (hbn : bn < MAXFILE) :
    ∃ b s' ip', bmap s ip bn = (b, s', ip') ∧ b ≠ 0 ∧
      dataAddr s' ip' bn = b ∧
      (∀ bn', bn' < MAXFILE → bn' ≠ bn → dataAddr s' ip' bn' = dataAddr s ip bn') ∧
      Valid s' ip' ∧
      (∀ bn', bn' < MAXFILE → dataAddr s ip bn' ≠ 0 →
        ∀ c, s'.disk (dataAddr s ip bn') c = s.disk (dataAddr s ip bn') c) ∧
      ip'.size = ip.size ∧
      (dataAddr s ip bn ≠ 0 → b = dataAddr s ip bn ∧ s' = s ∧ ip' = ip) := by
  by_cases hd1 : bn < NDIRECT
  · -- direct branch
    obtain ⟨v, s', ip', heq, hvnz, hB, hVal, hdisk, hsize, hnoop⟩ :=
      ensureAddr_direct_spec s ip bn hV hd1
    have hbmap : bmap s ip bn = (v, s', ip') := by
      unfold bmap
      rw [if_pos hd1]
      exact heq
    have hmain : dataAddr s' ip' bn = v := by
      have := hB (Role.data bn) hbn
      rw [if_pos rfl] at this
      exact this
    have hframe : ∀ bn', bn' < MAXFILE → bn' ≠ bn →
        dataAddr s' ip' bn' = dataAddr s ip bn' := by
      intro bn' hbn' hne
      have := hB (Role.data bn') hbn'
      rw [if_neg (fun h => hne (by injection h))] at this
      exact this
    refine ⟨v, s', ip', hbmap, hvnz, hmain, hframe, hVal, ?_, hsize, ?_⟩
    · intro bn' hbn' hw c
      by_cases hne : bn' = bn
      · obtain ⟨hve, hse, hipe⟩ := hnoop (by
          rw [← dataAddr_direct s ip bn hd1, ← hne]; exact hw)
        rw [hse]
      · apply hdisk
        intro hwe
        have h2 := hVal.inj (Role.data bn') (Role.data bn) hbn' hbn
          (fun h => hne (by injection h))
          (by rw [roleAddr_data, hframe bn' hbn' hne]; exact hw)
        rw [roleAddr_data, roleAddr_data, hframe bn' hbn' hne, hmain] at h2
        exact h2 hwe
    · intro hda
      have := hnoop (by rw [← dataAddr_direct s ip bn hd1]; exact hda)
      rw [dataAddr_direct s ip bn hd1]
      exact this
  · by_cases hd2 : bn - NDIRECT < NINDIRECT
    · -- singly-indirect branch
      obtain ⟨v1, s1, ip1, heq1, hv1, hB1, hV1, hdisk1, hsize1, hnoop1⟩ :=
        ensureAddr_ind_spec s ip hV
      have hI1eq : ip1.addrs NDIRECT = v1 := by
        have := hB1 Role.ind trivial
        rw [if_pos rfl, roleAddr_ind] at this
        exact this
      obtain ⟨v2, s2, heq2, hv2, hB2, hV2, hcont2, hnoop2⟩ :=
        ensureEnt_single_spec s1 ip1 (bn - NDIRECT) hV1 hd2 (by rw [hI1eq]; exact hv1)
      have hbneq : NDIRECT + (bn - NDIRECT) = bn := by omega
      have hB1data : ∀ bn', bn' < MAXFILE →
          dataAddr s1 ip1 bn' = dataAddr s ip bn' := by
        intro bn' hbn'
        have := hB1 (Role.data bn') hbn'
        rw [if_neg (fun h => Role.noConfusion h)] at this
        exact this
      have hbmap : bmap s ip bn = (v2, s2, ip1) := by
        unfold bmap
        rw [if_neg hd1, if_pos hd2, heq1]
        simp only []
        rw [← hI1eq, heq2]
      have hmain : dataAddr s2 ip1 bn = v2 := by
        have := hB2 (Role.data bn) hbn
        rw [if_pos (congrArg Role.data hbneq.symm), roleAddr_data] at this
        exact this
      have hframe : ∀ bn', bn' < MAXFILE → bn' ≠ bn →
          dataAddr s2 ip1 bn' = dataAddr s ip bn' := by
        intro bn' hbn' hne
        have := hB2 (Role.data bn') hbn'
        rw [if_neg (fun h => hne (by rw [← hbneq]; injection h)), roleAddr_data,
          roleAddr_data] at this
        rw [this, hB1data bn' hbn']
      refine ⟨v2, s2, ip1, hbmap, hv2, hmain, hframe, hV2, ?_, hsize1, ?_⟩
      · intro bn' hbn' hw c
        have hw1 : dataAddr s1 ip1 bn' = dataAddr s ip bn' := hB1data bn' hbn'
        have hstep1 : s1.disk (dataAddr s ip bn') c = s.disk (dataAddr s ip bn') c := by
          apply hdisk1
          intro hwe
          have h2 := hV1.inj (Role.data bn') Role.ind hbn' trivial
            (fun h => Role.noConfusion h) (by rw [roleAddr_data, hw1]; exact hw)
          rw [roleAddr_data, hw1, roleAddr_ind, hI1eq] at h2
          exact h2 hwe
        have hstep2 := hcont2 bn' hbn' (by rw [hw1]; exact hw) c
        rw [hw1] at hstep2
        rw [hstep2, hstep1]
      · intro hda
        have hda_eq := dataAddr_single s ip bn hd1 hd2
        have hI0 : ip.addrs NDIRECT ≠ 0 := by
          intro h
          rw [hda_eq, if_pos h] at hda
          exact hda rfl
        have hent : s.disk (ip.addrs NDIRECT) (bn - NDIRECT) ≠ 0 := by
          intro h
          rw [hda_eq, if_neg hI0, h] at hda
          exact hda rfl
        obtain ⟨hv1e, hs1e, hip1e⟩ := hnoop1 hI0
        obtain ⟨hv2e, hs2e⟩ := hnoop2 (by rw [hs1e, hip1e]; exact hent)
        refine ⟨?_, by rw [hs2e, hs1e], hip1e⟩
        rw [hv2e, hs1e, hip1e, hda_eq, if_neg hI0]
    · -- doubly-indirect branch
      obtain ⟨v1, s1, ip1, heq1, hv1, hB1, hV1, hdisk1, hsize1, hnoop1⟩ :=
        ensureAddr_dbl_spec s ip hV
      have hDeq : ip1.addrs (NDIRECT + 1) = v1 := by
        have := hB1 Role.dbl trivial
        rw [if_pos rfl, roleAddr_dbl] at this
        exact this
      have hDnz : ip1.addrs (NDIRECT + 1) ≠ 0 := by rw [hDeq]; exact hv1
      obtain ⟨v2, s2, heq2, hv2, hB2, hV2, hcont2, hnoop2⟩ :=
        ensureEnt_l2_spec s1 ip1 ((bn - NDIRECT - NINDIRECT) / NINDIRECT) hV1
          (outerIdx_lt bn hbn) hDnz
      have hl1eq : s2.disk (ip1.addrs (NDIRECT + 1))
          ((bn - NDIRECT - NINDIRECT) / NINDIRECT) = v2 := by
        have := hB2 (Role.l2 ((bn - NDIRECT - NINDIRECT) / NINDIRECT)) (outerIdx_lt bn hbn)
        rw [if_pos rfl, roleAddr_l2, if_neg hDnz] at this
        exact this
      obtain ⟨v3, s3, heq3, hv3, hB3, hV3, hcont3, hnoop3⟩ :=
        ensureEnt_dleaf_spec s2 ip1 bn ((bn - NDIRECT - NINDIRECT) / NINDIRECT)
          ((bn - NDIRECT - NINDIRECT) % NINDIRECT) hV2 hbn hd1 hd2 rfl rfl hDnz
          (by rw [hl1eq]; exact hv2)
      have hB1data : ∀ bn', bn' < MAXFILE →
          dataAddr s1 ip1 bn' = dataAddr s ip bn' := by
        intro bn' hbn'
        have := hB1 (Role.data bn') hbn'
        rw [if_neg (fun h => Role.noConfusion h)] at this
        exact this
      have hB2data : ∀ bn', bn' < MAXFILE →
          dataAddr s2 ip1 bn' = dataAddr s1 ip1 bn' := by
        intro bn' hbn'
        have := hB2 (Role.data bn') hbn'
        rw [if_neg (fun h => Role.noConfusion h), roleAddr_data] at this
        exact this
      have hbmap : bmap s ip bn = (v3, s3, ip1) := by
        unfold bmap
        rw [if_neg hd1, if_neg hd2, heq1]
        simp only []
        rw [← hDeq, heq2]
        simp only []
        rw [← hl1eq, heq3]
      have hmain : dataAddr s3 ip1 bn = v3 := by
        have := hB3 (Role.data bn) hbn
        rw [if_pos rfl, roleAddr_data] at this
        exact this
      have hframe : ∀ bn', bn' < MAXFILE → bn' ≠ bn →
          dataAddr s3 ip1 bn' = dataAddr s ip bn' := by
        intro bn' hbn' hne
        have := hB3 (Role.data bn') hbn'
        rw [if_neg (fun h => hne (by injection h)), roleAddr_data, roleAddr_data] at this
        rw [this, hB2data bn' hbn', hB1data bn' hbn']
      refine ⟨v3, s3, ip1, hbmap, hv3, hmain, hframe, hV3, ?_, hsize1, ?_⟩
      · intro bn' hbn' hw c
        have hw1 : dataAddr s1 ip1 bn' = dataAddr s ip bn' := hB1data bn' hbn'
        have hw2 : dataAddr s2 ip1 bn' = dataAddr s ip bn' := by
          rw [hB2data bn' hbn', hw1]
        have hstep1 : s1.disk (dataAddr s ip bn') c = s.disk (dataAddr s ip bn') c := by
          apply hdisk1
          intro hwe
          have h2 := hV1.inj (Role.data bn') Role.dbl hbn' trivial
            (fun h => Role.noConfusion h) (by rw [roleAddr_data, hw1]; exact hw)
          rw [roleAddr_data, hw1, roleAddr_dbl, hDeq] at h2
          exact h2 hwe
        have hstep2 := hcont2 bn' hbn' (by rw [hw1]; exact hw) c
        rw [hw1] at hstep2
        have hstep3 := hcont3 bn' hbn' (by rw [hw2]; exact hw) c
        rw [hw2] at hstep3
        rw [hstep3, hstep2, hstep1]
      · intro hda
        have hda_eq := dataAddr_double s ip bn hd1 hd2
        have hD0 : ip.addrs (NDIRECT + 1) ≠ 0 := by
          intro h
          rw [hda_eq, if_pos h] at hda
          exact hda rfl
        have hl10 : s.disk (ip.addrs (NDIRECT + 1))
            ((bn - NDIRECT - NINDIRECT) / NINDIRECT) ≠ 0 := by
          intro h
          rw [hda_eq, if_neg hD0, h] at hda
          exact hda rfl
        obtain ⟨hv1e, hs1e, hip1e⟩ := hnoop1 hD0
        obtain ⟨hv2e, hs2e⟩ := hnoop2 (by rw [hs1e, hip1e]; exact hl10)
        obtain ⟨hv3e, hs3e⟩ := hnoop3 (by
          rw [hs2e, hs1e, hip1e]; exact hda)
        refine ⟨?_, by rw [hs3e, hs2e, hs1e], hip1e⟩
        rw [hv3e, hs2e, hs1e, hip1e]

/-- When logical block `bn` is already fully mapped, `bmap` performs no
allocation and no mutation: every `if (… == 0)` test on its path
fails. -/
theorem bmap_noop (s : FsState) (ip : Inode) (bn : Nat) (h : dataAddr s ip bn ≠ 0) :
    bmap s ip bn = (dataAddr s ip bn, s, ip) := by
  unfold bmap
  by_cases hd1 : bn < NDIRECT
  · rw [if_pos hd1, dataAddr_direct s ip bn hd1]
    unfold ensureAddr
    rw [dataAddr_direct s ip bn hd1] at h
    rw [if_neg h]
  · rw [if_neg hd1]
    by_cases hd2 : bn - NDIRECT < NINDIRECT
    · rw [if_pos hd2]
      have hda := dataAddr_single s ip bn hd1 hd2
      have hI : ip.addrs NDIRECT ≠ 0 := by
        intro hz
        rw [hda, if_pos hz] at h
        exact h rfl
      have hent : s.disk (ip.addrs NDIRECT) (bn - NDIRECT) ≠ 0 := by
        intro hz
        rw [hda, if_neg hI, hz] at h
        exact h rfl
      have e1 : ensureAddr s ip NDIRECT = (ip.addrs NDIRECT, s, ip) := by
        unfold ensureAddr
        rw [if_neg hI]
      have e2 : ensureEnt s (ip.addrs NDIRECT) (bn - NDIRECT) =
          (s.disk (ip.addrs NDIRECT) (bn - NDIRECT), s) := by
        unfold ensureEnt
        rw [if_neg hent]
      rw [e1]
      simp only []
      rw [e2, hda, if_neg hI]
    · rw [if_neg hd2]
      have hda := dataAddr_double s ip bn hd1 hd2
      have hD : ip.addrs (NDIRECT + 1) ≠ 0 := by
        intro hz
        rw [hda, if_pos hz] at h
        exact h rfl
      have hl1 : s.disk (ip.addrs (NDIRECT + 1))
          ((bn - NDIRECT - NINDIRECT) / NINDIRECT) ≠ 0 := by
        intro hz
        rw [hda, if_neg hD, hz] at h
        exact h rfl
      have hleaf : s.disk (s.disk (ip.addrs (NDIRECT + 1))
          ((bn - NDIRECT - NINDIRECT) / NINDIRECT))
          ((bn - NDIRECT - NINDIRECT) % NINDIRECT) ≠ 0 := by
        intro hz
        rw [hda, if_neg hD, if_neg hl1, hz] at h
        exact h rfl
      have e1 : ensureAddr s ip (NDIRECT + 1) = (ip.addrs (NDIRECT + 1), s, ip) := by
        unfold ensureAddr
        rw [if_neg hD]
      have e2 : ensureEnt s (ip.addrs (NDIRECT + 1))
          ((bn - NDIRECT - NINDIRECT) / NINDIRECT) =
          (s.disk (ip.addrs (NDIRECT + 1)) ((bn - NDIRECT - NINDIRECT) / NINDIRECT), s) := by
        unfold ensureEnt
        rw [if_neg hl1]
      have e3 : ensureEnt s (s.disk (ip.addrs (NDIRECT + 1))
          ((bn - NDIRECT - NINDIRECT) / NINDIRECT))
          ((bn - NDIRECT - NINDIRECT) % NINDIRECT) =
          (s.disk (s.disk (ip.addrs (NDIRECT + 1))
            ((bn - NDIRECT - NINDIRECT) / NINDIRECT))
            ((bn - NDIRECT - NINDIRECT) % NINDIRECT), s) := by
        unfold ensureEnt
        rw [if_neg hleaf]
      rw [e1]
      simp only []
      rw [e2]
      simp only []
      rw [e3, hda, if_neg hD, if_neg hl1]

theorem BSIZE_pos : 0 < BSIZE := by decide

theorem off_div_step (off i : Nat) (h : i < BSIZE - off % BSIZE) :
    (off + i) / BSIZE = off / BSIZE ∧ (off + i) % BSIZE = off % BSIZE + i := by
  simp only [BSIZE_eq] at *
  omega

theorem div_lt_MAXFILE (off : Nat) (h : off < MAXFILE * BSIZE) :
    off / BSIZE < MAXFILE := by
  simp only [BSIZE_eq, MAXFILE_eq] at *
  omega

theorem span_pos (n tot off : Nat) (h : tot < n) :
    1 ≤ min (n - tot) (BSIZE - off % BSIZE) := by
  simp only [BSIZE_eq] at *
  omega

/-- When the whole byte range is already mapped (as it is right after a
`writei` over it), the `readi` loop allocates nothing, leaves disk and
inode untouched, and copies exactly the mapped blocks' bytes into the
destination window. -/
theorem readLoop_mapped (fuel : Nat) :
    ∀ (s : FsState) (ip : Inode) (dst : Nat → Nat) (dstA off n tot : Nat),
    n - tot < fuel →
    (∀ i, i < n - tot → dataAddr s ip ((off + i) / BSIZE) ≠ 0) →
    ∃ dst', readLoop fuel s ip dst dstA off n tot okTrue = (dst', s, ip) ∧
      (∀ a, a < dstA → dst' a = dst a) ∧
      (∀ a, dstA + (n - tot) ≤ a → dst' a = dst a) ∧
      (∀ i, i < n - tot →
        dst' (dstA + i) = s.disk (dataAddr s ip ((off + i) / BSIZE)) ((off + i) % BSIZE)) := by
  induction fuel with
  | zero =>
    intro s ip dst dstA off n tot hf hm
    omega
  | succ fuel ih =>
    intro s ip dst dstA off n tot hf hm
    by_cases htot : tot < n
    · have hm0 : dataAddr s ip (off / BSIZE) ≠ 0 := by
        have := hm 0 (by omega)
        rwa [Nat.add_zero] at this
      have hmge : 1 ≤ min (n - tot) (BSIZE - off % BSIZE) := span_pos n tot off htot
      have hstep : readLoop (fuel + 1) s ip dst dstA off n tot okTrue =
          readLoop fuel s ip
            (copyOut dst dstA
              (fun i => s.disk (dataAddr s ip (off / BSIZE)) (off % BSIZE + i))
              (min (n - tot) (BSIZE - off % BSIZE)))
            (dstA + min (n - tot) (BSIZE - off % BSIZE))
            (off + min (n - tot) (BSIZE - off % BSIZE)) n
            (tot + min (n - tot) (BSIZE - off % BSIZE)) okTrue := by
        simp only [readLoop, if_pos htot, bmap_noop s ip (off / BSIZE) hm0, okTrue,
          if_true]
      obtain ⟨dst', hrec, hlo, hhi, hbytes⟩ := ih s ip
        (copyOut dst dstA
          (fun i => s.disk (dataAddr s ip (off / BSIZE)) (off % BSIZE + i))
          (min (n - tot) (BSIZE - off % BSIZE)))
        (dstA + min (n - tot) (BSIZE - off % BSIZE))
        (off + min (n - tot) (BSIZE - off % BSIZE)) n
        (tot + min (n - tot) (BSIZE - off % BSIZE))
        (by omega)
        (by
          intro i hi
          have := hm (min (n - tot) (BSIZE - off % BSIZE) + i) (by omega)
          rwa [← Nat.add_assoc] at this)
      refine ⟨dst', by rw [hstep]; exact hrec, ?_, ?_, ?_⟩
      · intro a ha
        rw [hlo a (by omega), copyOut_out _ _ _ _ _ (Or.inl ha)]
      · intro a ha
        rw [hhi a (by omega), copyOut_out _ _ _ _ _ (Or.inr (by omega))]
      · intro i hi
        by_cases him : i < min (n - tot) (BSIZE - off % BSIZE)
        · have hds := off_div_step off i (by omega)
          rw [hlo (dstA + i) (by omega),
            copyOut_in _ _ _ _ _ (by omega) (by omega), hds.1, hds.2]
          congr 1
          omega
        · have heq1 : dstA + min (n - tot) (BSIZE - off % BSIZE) +
              (i - min (n - tot) (BSIZE - off % BSIZE)) = dstA + i := by omega
          have heq2 : off + min (n - tot) (BSIZE - off % BSIZE) +
              (i - min (n - tot) (BSIZE - off % BSIZE)) = off + i := by omega
          have := hbytes (i - min (n - tot) (BSIZE - off % BSIZE)) (by omega)
          rwa [heq1, heq2] at this
    · refine ⟨dst, by simp only [readLoop, if_neg htot], fun _ _ => rfl,
        fun _ _ => rfl, fun i hi => absurd hi (by omega)⟩

/-- A mapped data block is distinct from every path block of the tree:
the singly-indirect block, the doubly-indirect block, and each
second-level indirect block (the no-double-allocation invariant). -/
theorem data_not_path (s : FsState) (ip : Inode) (bn : Nat)
    (hV : Valid s ip) (hbn : bn < MAXFILE) (hb : dataAddr s ip bn ≠ 0) :
    dataAddr s ip bn ≠ ip.addrs NDIRECT ∧
    dataAddr s ip bn ≠ ip.addrs (NDIRECT + 1) ∧
    ∀ j, j < NINDIRECT → ip.addrs (NDIRECT + 1) ≠ 0 →
      dataAddr s ip bn ≠ s.disk (ip.addrs (NDIRECT + 1)) j := by
  have hb' : roleAddr s ip (Role.data bn) ≠ 0 := by rwa [roleAddr_data]
  refine ⟨?_, ?_, ?_⟩
  · have := hV.inj (Role.data bn) Role.ind hbn trivial (fun h => Role.noConfusion h) hb'
    rwa [roleAddr_data, roleAddr_ind] at this
  · have := hV.inj (Role.data bn) Role.dbl hbn trivial (fun h => Role.noConfusion h) hb'
    rwa [roleAddr_data, roleAddr_dbl] at this
  · intro j hj hz
    have := hV.inj (Role.data bn) (Role.l2 j) hbn hj (fun h => Role.noConfusion h) hb'
    rwa [roleAddr_data, roleAddr_l2, if_neg hz] at this

/-- `either_copyin` + `log_write` into a mapped data block: only that
block's window changes, every role keeps its block, and the invariant
is preserved. -/
theorem writeBytes_data_spec (s : FsState) (ip : Inode) (bn o m : Nat) (f : Nat → Nat)
    (hV : Valid s ip) (hbn : bn < MAXFILE) (hb : dataAddr s ip bn ≠ 0) :
    (∀ x c, x ≠ dataAddr s ip bn →
      (writeBytes s (dataAddr s ip bn) o f m).disk x c = s.disk x c) ∧
    (∀ r, RoleOk r →
      roleAddr (writeBytes s (dataAddr s ip bn) o f m) ip r = roleAddr s ip r) ∧
    Valid (writeBytes s (dataAddr s ip bn) o f m) ip ∧
    (∀ c, c < o ∨ o + m ≤ c →
      (writeBytes s (dataAddr s ip bn) o f m).disk (dataAddr s ip bn) c =
        s.disk (dataAddr s ip bn) c) ∧
    (∀ c, o ≤ c → c < o + m →
      (writeBytes s (dataAddr s ip bn) o f m).disk (dataAddr s ip bn) c = f (c - o)) := by
  obtain ⟨hnI, hnD, hnL⟩ := data_not_path s ip bn hV hbn hb
  have hne : ∀ x c, x ≠ dataAddr s ip bn →
      (writeBytes s (dataAddr s ip bn) o f m).disk x c = s.disk x c := by
    intro x c hx
    rw [writeBytes_disk]
    exact if_neg (fun hc => hx hc.1)
  have hrole : ∀ r, RoleOk r →
      roleAddr (writeBytes s (dataAddr s ip bn) o f m) ip r = roleAddr s ip r := by
    intro r hr
    cases r with
    | data bn' =>
      rw [roleAddr_data, roleAddr_data]
      refine dataAddr_frame _ _ _ _ _ (fun _ => rfl) (fun _ _ => rfl) (fun _ _ => rfl)
        ?_ ?_ ?_
      · intro _ _ _
        exact hne _ _ (Ne.symm hnI)
      · intro _ _ _
        exact hne _ _ (Ne.symm hnD)
      · intro h1 h2 hz hl
        exact hne _ _ (Ne.symm (hnL _ (outerIdx_lt bn' hr) hz))
    | ind => rfl
    | dbl => rfl
    | l2 j =>
      rw [roleAddr_l2, roleAddr_l2]
      by_cases hz : ip.addrs (NDIRECT + 1) = 0
      · rw [if_pos hz, if_pos hz]
      · rw [if_neg hz, if_neg hz]
        exact hne _ _ (Ne.symm hnD)
  refine ⟨hne, hrole, ?_, ?_, ?_⟩
  · refine valid_step s _ ip ip (Role.data bn) (dataAddr s ip bn) hV hbn ?_
      rfl (Or.inr ⟨(roleAddr_data s ip bn).symm, rfl⟩)
    intro r hr
    rw [hrole r hr]
    by_cases he : r = Role.data bn
    · rw [if_pos he, he, roleAddr_data]
    · rw [if_neg he]
  · intro c hc
    rw [writeBytes_disk]
    exact if_neg (fun h => by omega)
  · intro c h1 h2
    rw [writeBytes_disk]
    rw [if_pos ⟨rfl, h1, h2⟩]

/-- The `writei` transfer loop with all copies succeeding: it ends with
`off` advanced by the remaining count (the value the epilogue uses),
preserves the invariant and the inode size, keeps every previously
mapped block at its address, leaves bytes of mapped blocks below the
starting offset untouched, and stores exactly the source bytes at the
written positions of the final block map. -/
theorem writeLoop_spec (fuel : Nat) :
    ∀ (s : FsState) (ip : Inode) (src : Nat → Nat) (srcA off n tot : Nat),
    Valid s ip → n - tot < fuel → off + (n - tot) ≤ MAXFILE * BSIZE →
    ∃ s' ip', writeLoop fuel s ip src srcA off n tot okTrue = (s', ip', off + (n - tot)) ∧
      Valid s' ip' ∧ ip'.size = ip.size ∧
      (∀ bn, bn < MAXFILE → dataAddr s ip bn ≠ 0 → dataAddr s' ip' bn = dataAddr s ip bn) ∧
      (∀ bn c, bn < MAXFILE → dataAddr s ip bn ≠ 0 → c < BSIZE → bn * BSIZE + c < off →
        s'.disk (dataAddr s ip bn) c = s.disk (dataAddr s ip bn) c) ∧
      (∀ i, i < n - tot →
        dataAddr s' ip' ((off + i) / BSIZE) ≠ 0 ∧
        s'.disk (dataAddr s' ip' ((off + i) / BSIZE)) ((off + i) % BSIZE) = src (srcA + i)) := by
  induction fuel with
  | zero =>
    intro s ip src srcA off n tot hV hf hr
    omega
  | succ fuel ih =>
    intro s ip src srcA off n tot hV hf hr
    by_cases htot : tot < n
    · have hm1 : 1 ≤ min (n - tot) (BSIZE - off % BSIZE) := span_pos n tot off htot
      have hbn0 : off / BSIZE < MAXFILE := div_lt_MAXFILE off (by omega)
      obtain ⟨b, s1, ip1, hbm, hbnz, hmain, hfrD, hV1, hfrC, hsz1, hnoop⟩ :=
        bmap_spec s ip (off / BSIZE) hV hbn0
      have hstep : writeLoop (fuel + 1) s ip src srcA off n tot okTrue =
          writeLoop fuel
            (writeBytes s1 b (off % BSIZE) (fun i => src (srcA + i))
              (min (n - tot) (BSIZE - off % BSIZE)))
            ip1 src (srcA + min (n - tot) (BSIZE - off % BSIZE))
            (off + min (n - tot) (BSIZE - off % BSIZE)) n
            (tot + min (n - tot) (BSIZE - off % BSIZE)) okTrue := by
        simp only [writeLoop, if_pos htot, hbm, okTrue, if_true]
      rw [← hmain] at hstep
      obtain ⟨hW1, hW2, hW3, hW4, hW5⟩ := writeBytes_data_spec s1 ip1 (off / BSIZE)
        (off % BSIZE) (min (n - tot) (BSIZE - off % BSIZE)) (fun i => src (srcA + i))
        hV1 hbn0 (by rw [hmain]; exact hbnz)
      obtain ⟨s2, hs2⟩ : ∃ t, writeBytes s1 (dataAddr s1 ip1 (off / BSIZE)) (off % BSIZE)
          (fun i => src (srcA + i)) (min (n - tot) (BSIZE - off % BSIZE)) = t := ⟨_, rfl⟩
      rw [hs2] at hW1 hW2 hW3 hW4 hW5 hstep
      have hdA1 : ∀ bn, bn < MAXFILE → dataAddr s2 ip1 bn = dataAddr s1 ip1 bn := by
        intro bn hbn
        have := hW2 (Role.data bn) hbn
        rwa [roleAddr_data, roleAddr_data] at this
      obtain ⟨s', ip', hrec, hV', hsz', hDA, hFrame, hBytes⟩ := ih s2 ip1 src
        (srcA + min (n - tot) (BSIZE - off % BSIZE))
        (off + min (n - tot) (BSIZE - off % BSIZE)) n
        (tot + min (n - tot) (BSIZE - off % BSIZE))
        hW3 (by omega) (by omega)
      have hpre : ∀ bn, bn < MAXFILE → dataAddr s ip bn ≠ 0 →
          dataAddr s2 ip1 bn = dataAddr s ip bn := by
        intro bn hbn hnz
        rw [hdA1 bn hbn]
        by_cases hbq : bn = off / BSIZE
        · subst hbq
          obtain ⟨he1, he2, he3⟩ := hnoop hnz
          rw [he2, he3]
        · exact hfrD bn hbn hbq
      refine ⟨s', ip', ?_, hV', hsz'.trans hsz1, ?_, ?_, ?_⟩
      · have efin : off + min (n - tot) (BSIZE - off % BSIZE) +
            (n - (tot + min (n - tot) (BSIZE - off % BSIZE))) = off + (n - tot) := by omega
        rw [hstep, hrec, efin]
      · intro bn hbn hnz
        have hnz2 : dataAddr s2 ip1 bn ≠ 0 := by
          rw [hpre bn hbn hnz]
          exact hnz
        exact (hDA bn hbn hnz2).trans (hpre bn hbn hnz)
      · intro bn c hbn hnz hc hpos
        have hnz2 : dataAddr s2 ip1 bn ≠ 0 := by
          rw [hpre bn hbn hnz]
          exact hnz
        have h1 : s'.disk (dataAddr s ip bn) c = s2.disk (dataAddr s ip bn) c := by
          have := hFrame bn c hbn hnz2 hc
            (by simp only [BSIZE_eq] at hpos hc ⊢; omega)
          rwa [hpre bn hbn hnz] at this
        have h2 : s2.disk (dataAddr s ip bn) c = s1.disk (dataAddr s ip bn) c := by
          by_cases hbq : bn = off / BSIZE
          · subst hbq
            obtain ⟨he1, he2, he3⟩ := hnoop hnz
            have hcell : c < off % BSIZE := by
              simp only [BSIZE_eq] at hpos hc ⊢
              omega
            have haddr : dataAddr s1 ip1 (off / BSIZE) = dataAddr s ip (off / BSIZE) := by
              rw [he2, he3]
            have := hW4 c (Or.inl hcell)
            rwa [haddr] at this
          · have hs1bn : dataAddr s1 ip1 bn = dataAddr s ip bn := hfrD bn hbn hbq
            have hne' : dataAddr s ip bn ≠ dataAddr s1 ip1 (off / BSIZE) := by
              rw [← hs1bn]
              have := hV1.inj (Role.data bn) (Role.data (off / BSIZE)) hbn hbn0
                (fun h => hbq (Role.data.inj h))
                (by rw [roleAddr_data, hs1bn]; exact hnz)
              rwa [roleAddr_data, roleAddr_data] at this
            exact hW1 _ c hne'
        have h3 : s1.disk (dataAddr s ip bn) c = s.disk (dataAddr s ip bn) c :=
          hfrC bn hbn hnz c
        exact h1.trans (h2.trans h3)
      · intro i hi
        by_cases him : i < min (n - tot) (BSIZE - off % BSIZE)
        · have hds := off_div_step off i (by simp only [BSIZE_eq] at *; omega)
          have hnz2 : dataAddr s2 ip1 (off / BSIZE) ≠ 0 := by
            rw [hdA1 _ hbn0, hmain]
            exact hbnz
          have hA' : dataAddr s' ip' (off / BSIZE) = dataAddr s2 ip1 (off / BSIZE) :=
            hDA _ hbn0 hnz2
          constructor
          · rw [hds.1, hA', hdA1 _ hbn0, hmain]
            exact hbnz
          · rw [hds.1, hds.2, hA']
            have hframe1 := hFrame (off / BSIZE) (off % BSIZE + i) hbn0 hnz2
              (by simp only [BSIZE_eq] at him ⊢; omega)
              (by simp only [BSIZE_eq] at him ⊢; omega)
            rw [hframe1, hdA1 _ hbn0]
            have := hW5 (off % BSIZE + i) (by omega) (by omega)
            rw [this]
            congr 1
            omega
        · have e1 : off + min (n - tot) (BSIZE - off % BSIZE) +
              (i - min (n - tot) (BSIZE - off % BSIZE)) = off + i := by omega
          have e2 : srcA + min (n - tot) (BSIZE - off % BSIZE) +
              (i - min (n - tot) (BSIZE - off % BSIZE)) = srcA + i := by omega
          have := hBytes (i - min (n - tot) (BSIZE - off % BSIZE)) (by omega)
          rwa [e1, e2] at this
    · have hnt : n - tot = 0 := by omega
      refine ⟨s, ip, ?_, hV, rfl, fun bn _ _ => rfl, fun bn c _ _ _ _ => rfl,
        fun i hi => absurd hi (by omega)⟩
      simp only [writeLoop, if_neg htot, hnt, Nat.add_zero]

/-- The `readi` transfer loop with all copies succeeding: only the
destination window `[dstA, dstA + (n - tot))` changes, the invariant
and the inode size are preserved, previously mapped blocks keep their
address and contents, and each destination byte equals the
corresponding byte of the final block map (zero-filled fresh blocks
for holes that `bmap` just allocated). -/
theorem readLoop_spec (fuel : Nat) :
    ∀ (s : FsState) (ip : Inode) (dst : Nat → Nat) (dstA off n tot : Nat),
    Valid s ip → n - tot < fuel → off + (n - tot) ≤ MAXFILE * BSIZE →
    ∃ dst' s' ip', readLoop fuel s ip dst dstA off n tot okTrue = (dst', s', ip') ∧
      Valid s' ip' ∧ ip'.size = ip.size ∧
      (∀ a, a < dstA → dst' a = dst a) ∧
      (∀ a, dstA + (n - tot) ≤ a → dst' a = dst a) ∧
      (∀ bn, bn < MAXFILE → dataAddr s ip bn ≠ 0 →
        dataAddr s' ip' bn = dataAddr s ip bn ∧
        ∀ c, s'.disk (dataAddr s ip bn) c = s.disk (dataAddr s ip bn) c) ∧
      (∀ i, i < n - tot →
        dataAddr s' ip' ((off + i) / BSIZE) ≠ 0 ∧
        dst' (dstA + i) =
          s'.disk (dataAddr s' ip' ((off + i) / BSIZE)) ((off + i) % BSIZE)) := by
  induction fuel with
  | zero =>
    intro s ip dst dstA off n tot hV hf hr
    omega
  | succ fuel ih =>
    intro s ip dst dstA off n tot hV hf hr
    by_cases htot : tot < n
    · have hm1 : 1 ≤ min (n - tot) (BSIZE - off % BSIZE) := span_pos n tot off htot
      have hbn0 : off / BSIZE < MAXFILE := div_lt_MAXFILE off (by omega)
      obtain ⟨b, s1, ip1, hbm, hbnz, hmain, hfrD, hV1, hfrC, hsz1, hnoop⟩ :=
        bmap_spec s ip (off / BSIZE) hV hbn0
      have hstep : readLoop (fuel + 1) s ip dst dstA off n tot okTrue =
          readLoop fuel s1 ip1
            (copyOut dst dstA (fun i => s1.disk b (off % BSIZE + i))
              (min (n - tot) (BSIZE - off % BSIZE)))
            (dstA + min (n - tot) (BSIZE - off % BSIZE))
            (off + min (n - tot) (BSIZE - off % BSIZE)) n
            (tot + min (n - tot) (BSIZE - off % BSIZE)) okTrue := by
        simp only [readLoop, if_pos htot, hbm, okTrue, if_true]
      rw [← hmain] at hstep
      obtain ⟨dst', s', ip', hrec, hV', hsz', hlo, hhi, hpres, hbytes⟩ := ih s1 ip1
        (copyOut dst dstA
          (fun i => s1.disk (dataAddr s1 ip1 (off / BSIZE)) (off % BSIZE + i))
          (min (n - tot) (BSIZE - off % BSIZE)))
        (dstA + min (n - tot) (BSIZE - off % BSIZE))
        (off + min (n - tot) (BSIZE - off % BSIZE)) n
        (tot + min (n - tot) (BSIZE - off % BSIZE))
        hV1 (by omega) (by omega)
      have hpre : ∀ bn, bn < MAXFILE → dataAddr s ip bn ≠ 0 →
          dataAddr s1 ip1 bn = dataAddr s ip bn := by
        intro bn hbn hnz
        by_cases hbq : bn = off / BSIZE
        · subst hbq
          obtain ⟨he1, he2, he3⟩ := hnoop hnz
          rw [he2, he3]
        · exact hfrD bn hbn hbq
      refine ⟨dst', s', ip', ?_, hV', hsz'.trans hsz1, ?_, ?_, ?_, ?_⟩
      · rw [hstep]
        exact hrec
      · intro a ha
        rw [hlo a (by omega), copyOut_out _ _ _ _ _ (Or.inl ha)]
      · intro a ha
        rw [hhi a (by omega), copyOut_out _ _ _ _ _ (Or.inr (by omega))]
      · intro bn hbn hnz
        have hd1 : dataAddr s1 ip1 bn = dataAddr s ip bn := hpre bn hbn hnz
        have hnz1 : dataAddr s1 ip1 bn ≠ 0 := by
          rw [hd1]
          exact hnz
        obtain ⟨hpA, hpC⟩ := hpres bn hbn hnz1
        refine ⟨hpA.trans hd1, fun c => ?_⟩
        have := hpC c
        rw [hd1] at this
        rw [this]
        exact hfrC bn hbn hnz c
      · intro i hi
        by_cases him : i < min (n - tot) (BSIZE - off % BSIZE)
        · have hds := off_div_step off i (by simp only [BSIZE_eq] at *; omega)
          have hnz1 : dataAddr s1 ip1 (off / BSIZE) ≠ 0 := by
            rw [hmain]
            exact hbnz
          obtain ⟨hpA, hpC⟩ := hpres (off / BSIZE) hbn0 hnz1
          constructor
          · rw [hds.1, hpA, hmain]
            exact hbnz
          · rw [hds.1, hds.2, hpA]
            rw [hlo (dstA + i) (by omega),
              copyOut_in dst dstA _ _ (dstA + i) (by omega) (by omega)]
            have e : dstA + i - dstA = i := by omega
            rw [e, hpC (off % BSIZE + i)]
        · have e1 : dstA + min (n - tot) (BSIZE - off % BSIZE) +
              (i - min (n - tot) (BSIZE - off % BSIZE)) = dstA + i := by omega
          have e2 : off + min (n - tot) (BSIZE - off % BSIZE) +
              (i - min (n - tot) (BSIZE - off % BSIZE)) = off + i := by omega
          have := hbytes (i - min (n - tot) (BSIZE - off % BSIZE)) (by omega)
          rwa [e1, e2] at this
    · have hnt : n - tot = 0 := by omega
      refine ⟨dst, s, ip, by simp only [readLoop, if_neg htot], hV, rfl,
        fun _ _ => rfl, fun _ _ => rfl, fun bn hbn hnz => ⟨rfl, fun c => rfl⟩,
        fun i hi => absurd hi (by omega)⟩

/-- In the initial state an inode with no block pointers occupies no
role. -/
theorem roleAddr_fs0_zero (ip : Inode) (h : ip.addrs = fun _ => 0) :
    ∀ r, roleAddr fs0 ip r = 0 := by
  intro r
  cases r with
  | data bn =>
    rw [roleAddr_data]
    unfold dataAddr
    rw [h]
    by_cases h1 : bn < NDIRECT
    · rw [if_pos h1]
    · rw [if_neg h1]
      by_cases h2 : bn - NDIRECT < NINDIRECT
      · rw [if_pos h2, if_pos rfl]
      · rw [if_neg h2, if_pos rfl]
  | ind => rw [roleAddr_ind, h]
  | dbl => rw [roleAddr_dbl, h]
  | l2 j =>
    rw [roleAddr_l2, h]
    rw [if_pos rfl]

/-- The all-zero disk with allocation sequence 2, 3, 4, … satisfies the
reachability invariant for an inode with no block pointers. -/
theorem valid_fs0_empty (ip : Inode) (h : ip.addrs = fun _ => 0) : Valid fs0 ip := by
  constructor
  · intro r r' hr hr' hne hnz
    rw [roleAddr_fs0_zero ip h r] at hnz
    exact absurd rfl hnz
  · intro i j hi hij
    show i + 2 ≠ j + 2
    omega
  · intro i hi
    show i + 2 ≠ 0
    omega
  · intro i r hi hr
    rw [roleAddr_fs0_zero ip h r]
    show i + 2 ≠ 0
    omega

/-- Claim C5: `writei` rejects exactly at its three guards — a start
strictly past end-of-file (`off > ip->size`), offset wrap-around
(`off + n < off` on `uint`s), and a result past the absolute file-size
limit (`off + n > MAXFILE*BSIZE`, rejected outright, not truncated) —
returning -1 with nothing changed; a write starting exactly at
`off == ip->size` is accepted and extends the file to `off + n`. -/
theorem writei_guards (s : FsState) (ip : Inode) (src : Nat → Nat) (srcA off n : Nat) :
    (ip.size < off ∨ (off + n) % U32 < off ∨ MAXFILE * BSIZE < (off + n) % U32 →
      writei s ip src srcA off n okTrue = (-1, s, ip)) ∧
    (Valid s ip → off = ip.size → off + n ≤ MAXFILE * BSIZE →
      ∃ s' ip', writei s ip src srcA off n okTrue = (cint n, s', ip') ∧
        ip'.size = ip.size + n) := by
  constructor
  · intro hg
    unfold writei
    by_cases h1 : ip.size < off ∨ (off + n) % U32 < off
    · rw [if_pos h1]
    · have h2 : MAXFILE * BSIZE < (off + n) % U32 := by
        rcases hg with h | h | h
        · exact absurd (Or.inl h) h1
        · exact absurd (Or.inr h) h1
        · exact h
      rw [if_neg h1, if_pos h2]
  · intro hV hoff hmax
    have hMB : MAXFILE * BSIZE < U32 := by decide
    have hU : (off + n) % U32 = off + n := Nat.mod_eq_of_lt (by omega)
    obtain ⟨s2, w, hloop, hV2, hsz2, _, _, _⟩ :=
      writeLoop_spec (n + 1) s ip src srcA off n 0 hV (by omega) (by omega)
    refine ⟨s2,
      if 0 < n then
        (if w.size < off + (n - 0) then { w with size := off + (n - 0) } else w)
      else w, ?_, ?_⟩
    · unfold writei
      rw [if_neg (by rw [hU]; rintro (h | h) <;> omega),
        if_neg (by rw [hU]; omega), hloop]
    · by_cases hn : 0 < n
      · rw [if_pos hn, if_pos (by rw [hsz2]; omega)]
        show off + (n - 0) = ip.size + n
        omega
      · rw [if_neg hn, hsz2]
        omega

/-- Claim C4 is false on the code: with the always-failing copy oracle
(`either_copyout` failing on the very first block), `readi` of one byte
at offset 0 of a one-byte file transfers nothing — the destination
memory is untouched — yet returns 1, the clamped request count, not
the 0 bytes actually transferred. -/
theorem readi_short_read_cex :
    (readi fs0 ino1 mem55 0 0 1 okNone).1 = 1 ∧
    ∀ a, (readi fs0 ino1 mem55 0 0 1 okNone).2.1 a = mem55 a := by
  refine ⟨by decide, fun a => rfl⟩

/-- Claim C4 (amended): `readi`'s return value is the clamped count
`min(n, ip->size - off)` computed before the transfer loop, regardless
of copy success: the loop's `break` on a failed `either_copyout` does
not adjust the returned `n`, so with every copy failing the destination
is untouched but the full clamped count is still returned. -/
theorem readi_return_ignores_copy_failure (s : FsState) (ip : Inode) (dst : Nat → Nat)
    (dstA off n : Nat) (hg : ¬(ip.size < off ∨ (off + n) % U32 < off)) :
    (readi s ip dst dstA off n okNone).1 =
      cint (if ip.size < off + n then ip.size - off else n) ∧
    ∀ a, (readi s ip dst dstA off n okNone).2.1 a = dst a := by
  unfold readi
  rw [if_neg hg]
  refine ⟨rfl, ?_⟩
  intro a
  show (readLoop ((if ip.size < off + n then ip.size - off else n) + 1) s ip dst dstA off
      (if ip.size < off + n then ip.size - off else n) 0 okNone).1 a = dst a
  simp only [readLoop]
  by_cases h : 0 < (if ip.size < off + n then ip.size - off else n)
  · rw [if_pos h, if_neg (by decide)]
  · rw [if_neg h]

theorem writei_guards_witness :
    (ino1.size < 5 ∨ (5 + 3) % U32 < 5 ∨ MAXFILE * BSIZE < (5 + 3) % U32) ∧
    writei fs0 ino1 src7 0 5 3 okTrue = (-1, fs0, ino1) ∧
    Valid fs0 ino0 ∧ (0 : Nat) = ino0.size ∧ 0 + 2 ≤ MAXFILE * BSIZE ∧
    ∃ s' ip', writei fs0 ino0 src7 0 0 2 okTrue = (cint 2, s', ip') ∧
      ip'.size = ino0.size + 2 :=
  ⟨Or.inl (by decide),
   (writei_guards fs0 ino1 src7 0 5 3).1 (Or.inl (by decide)),
   valid_fs0_empty ino0 rfl, rfl, by decide,
   (writei_guards fs0 ino0 src7 0 0 2).2 (valid_fs0_empty ino0 rfl) rfl (by decide)⟩

theorem readi_return_ignores_copy_failure_witness :
    ¬(ino1.size < 0 ∨ (0 + 2) % U32 < 0) ∧
    (readi fs0 ino1 mem55 0 0 2 okNone).1 =
      cint (if ino1.size < 0 + 2 then ino1.size - 0 else 2) ∧
    ∀ a, (readi fs0 ino1 mem55 0 0 2 okNone).2.1 a = mem55 a :=
  ⟨by decide,
   (readi_return_ignores_copy_failure fs0 ino1 mem55 0 0 2 (by decide)).1,
   (readi_return_ignores_copy_failure fs0 ino1 mem55 0 0 2 (by decide)).2⟩

/-- Claim C3: `readi` rejects only `off > ip->size` and offset
wrap-around; a read extending past end-of-file is not rejected but
clamped: it transfers exactly `min(n, ip->size - off)` bytes into the
destination window (and with all copies succeeding returns that
count). -/
theorem readi_clamps (s : FsState) (ip : Inode) (dst : Nat → Nat) (dstA off n : Nat)
    (hV : Valid s ip) (hsz : ip.size ≤ MAXFILE * BSIZE) :
    (ip.size < off ∨ (off + n) % U32 < off →
      readi s ip dst dstA off n okTrue = (-1, dst, s, ip)) ∧
    (off ≤ ip.size → off + n < U32 →
      ∃ dst' s' ip', readi s ip dst dstA off n okTrue =
          (cint (min n (ip.size - off)), dst', s', ip') ∧
        (∀ a, a < dstA → dst' a = dst a) ∧
        (∀ a, dstA + min n (ip.size - off) ≤ a → dst' a = dst a) ∧
        (∀ i, i < min n (ip.size - off) →
          dataAddr s' ip' ((off + i) / BSIZE) ≠ 0 ∧
          dst' (dstA + i) =
            s'.disk (dataAddr s' ip' ((off + i) / BSIZE)) ((off + i) % BSIZE))) := by
  constructor
  · intro hg
    unfold readi
    rw [if_pos hg]
  · intro hoff hu
    have hU : (off + n) % U32 = off + n := Nat.mod_eq_of_lt hu
    have hn1 : (if ip.size < off + n then ip.size - off else n) = min n (ip.size - off) := by
      by_cases h : ip.size < off + n
      · rw [if_pos h]
        omega
      · rw [if_neg h]
        omega
    obtain ⟨dst', s', ip', hloop, hV', hsz', hlo, hhi, hpres, hbytes⟩ :=
      readLoop_spec (min n (ip.size - off) + 1) s ip dst dstA off
        (min n (ip.size - off)) 0 hV (by omega) (by omega)
    refine ⟨dst', s', ip', ?_, hlo, ?_, ?_⟩
    · unfold readi
      rw [if_neg (by rw [hU]; rintro (h | h) <;> omega)]
      show (cint (if ip.size < off + n then ip.size - off else n),
        readLoop ((if ip.size < off + n then ip.size - off else n) + 1) s ip dst dstA off
          (if ip.size < off + n then ip.size - off else n) 0 okTrue) = _
      rw [hn1, hloop]
    · intro a ha
      exact hhi a (by omega)
    · intro i hi
      exact hbytes i (by omega)

theorem readi_clamps_witness :
    Valid fs0 ino1 ∧ ino1.size ≤ MAXFILE * BSIZE ∧
    (ino1.size < 5 ∨ (5 + 1) % U32 < 5) ∧
    readi fs0 ino1 mem55 0 5 1 okTrue = (-1, mem55, fs0, ino1) ∧
    (0 ≤ ino1.size ∧ 0 + 1 < U32) ∧
    (∃ dst' s' ip', readi fs0 ino1 mem55 0 0 1 okTrue =
        (cint (min 1 (ino1.size - 0)), dst', s', ip') ∧
      (∀ a, a < 0 → dst' a = mem55 a) ∧
      (∀ a, 0 + min 1 (ino1.size - 0) ≤ a → dst' a = mem55 a) ∧
      (∀ i, i < min 1 (ino1.size - 0) →
        dataAddr s' ip' ((0 + i) / BSIZE) ≠ 0 ∧
        dst' (0 + i) = s'.disk (dataAddr s' ip' ((0 + i) / BSIZE)) ((0 + i) % BSIZE))) :=
  ⟨valid_fs0_empty ino1 rfl, by decide, Or.inl (by decide),
   (readi_clamps fs0 ino1 mem55 0 5 1 (valid_fs0_empty ino1 rfl) (by decide)).1
     (Or.inl (by decide)),
   ⟨by decide, by decide⟩,
   (readi_clamps fs0 ino1 mem55 0 0 1 (valid_fs0_empty ino1 rfl) (by decide)).2
     (by decide) (by decide)⟩

/-- Claim C2: `bmap` returns, per range of the logical block index, the
direct slot `ip->addrs[bn]`; entry `bn - NDIRECT` of the singly-indirect
block `ip->addrs[NDIRECT]`; or, with `k = bn - NDIRECT - NINDIRECT`,
entry `k % NINDIRECT` of the singly-indirect block found at entry
`k / NINDIRECT` of the doubly-indirect block `ip->addrs[NDIRECT+1]` —
allocating any zero entry along the path and returning the resulting
nonzero block number. -/
theorem bmap_layout (s : FsState) (ip : Inode) (bn : Nat)
    (hV : Valid s ip) (hbn : bn < MAXFILE) :
    ∃ b s' ip', bmap s ip bn = (b, s', ip') ∧ b ≠ 0 ∧
      (bn < NDIRECT → b = ip'.addrs bn) ∧
      (NDIRECT ≤ bn → bn < NDIRECT + NINDIRECT →
        ip'.addrs NDIRECT ≠ 0 ∧ b = s'.disk (ip'.addrs NDIRECT) (bn - NDIRECT)) ∧
      (NDIRECT + NINDIRECT ≤ bn →
        ip'.addrs (NDIRECT + 1) ≠ 0 ∧
        s'.disk (ip'.addrs (NDIRECT + 1)) ((bn - NDIRECT - NINDIRECT) / NINDIRECT) ≠ 0 ∧
        b = s'.disk (s'.disk (ip'.addrs (NDIRECT + 1))
              ((bn - NDIRECT - NINDIRECT) / NINDIRECT))
            ((bn - NDIRECT - NINDIRECT) % NINDIRECT)) := by
  obtain ⟨b, s', ip', hbm, hbnz, hmain, _, _, _, _⟩ := bmap_spec s ip bn hV hbn
  refine ⟨b, s', ip', hbm, hbnz, ?_, ?_, ?_⟩
  · intro h1
    rw [← hmain]
    exact dataAddr_direct s' ip' bn h1
  · intro h1 h2
    have hnd : ¬ bn < NDIRECT := by omega
    have h2' : bn - NDIRECT < NINDIRECT := by omega
    have hda := dataAddr_single s' ip' bn hnd h2'
    rw [hmain] at hda
    by_cases hz : ip'.addrs NDIRECT = 0
    · rw [if_pos hz] at hda
      exact absurd hda hbnz
    · rw [if_neg hz] at hda
      exact ⟨hz, hda⟩
  · intro h1
    have hnd : ¬ bn < NDIRECT := by
      simp only [NDIRECT_eq, NINDIRECT_eq] at h1 ⊢
      omega
    have hnd2 : ¬ bn - NDIRECT < NINDIRECT := by
      simp only [NDIRECT_eq, NINDIRECT_eq] at h1 ⊢
      omega
    have hda := dataAddr_double s' ip' bn hnd hnd2
    rw [hmain] at hda
    by_cases hz : ip'.addrs (NDIRECT + 1) = 0
    · rw [if_pos hz] at hda
      exact absurd hda hbnz
    · rw [if_neg hz] at hda
      by_cases hl : s'.disk (ip'.addrs (NDIRECT + 1))
          ((bn - NDIRECT - NINDIRECT) / NINDIRECT) = 0
      · rw [if_pos hl] at hda
        exact absurd hda hbnz
      · rw [if_neg hl] at hda
        exact ⟨hz, hl, hda⟩

theorem bmap_layout_witness :
    Valid fs0 ino0 ∧ (300 : Nat) < MAXFILE ∧
    ∃ b s' ip', bmap fs0 ino0 300 = (b, s', ip') ∧ b ≠ 0 ∧
      ((300 : Nat) < NDIRECT → b = ip'.addrs 300) ∧
      (NDIRECT ≤ 300 → (300 : Nat) < NDIRECT + NINDIRECT →
        ip'.addrs NDIRECT ≠ 0 ∧ b = s'.disk (ip'.addrs NDIRECT) (300 - NDIRECT)) ∧
      (NDIRECT + NINDIRECT ≤ 300 →
        ip'.addrs (NDIRECT + 1) ≠ 0 ∧
        s'.disk (ip'.addrs (NDIRECT + 1)) ((300 - NDIRECT - NINDIRECT) / NINDIRECT) ≠ 0 ∧
        b = s'.disk (s'.disk (ip'.addrs (NDIRECT + 1))
              ((300 - NDIRECT - NINDIRECT) / NINDIRECT))
            ((300 - NDIRECT - NINDIRECT) % NINDIRECT)) :=
  ⟨valid_fs0_empty ino0 rfl, by decide,
   bmap_layout fs0 ino0 300 (valid_fs0_empty ino0 rfl) (by decide)⟩

/-- Claim C1: write/read round-trip — with the `writei` precondition
`off ≤ ip->size` satisfied and `off + n ≤ MAXFILE*BSIZE`, a successful
`writei` of `n` bytes at `off` followed by a `readi` of `n` bytes at
`off` returns exactly the bytes that were written. -/
theorem writei_readi_roundtrip (s : FsState) (ip : Inode) (src dst : Nat → Nat)
    (srcA dstA off n : Nat) (hV : Valid s ip) (hoff : off ≤ ip.size)
    (hmax : off + n ≤ MAXFILE * BSIZE) :
    ∃ s' ip', writei s ip src srcA off n okTrue = (cint n, s', ip') ∧
      ∃ dst' s'' ip'', readi s' ip' dst dstA off n okTrue = (cint n, dst', s'', ip'') ∧
        ∀ i, i < n → dst' (dstA + i) = src (srcA + i) := by
  have hMB : MAXFILE * BSIZE < U32 := by decide
  have hU : (off + n) % U32 = off + n := Nat.mod_eq_of_lt (by omega)
  obtain ⟨s1, w, hloop, hV1, hszw, hDA, hFrame, hBytes⟩ :=
    writeLoop_spec (n + 1) s ip src srcA off n 0 hV (by omega) (by omega)
  obtain ⟨ip2, hip2⟩ : ∃ t,
      (if 0 < n then
        (if w.size < off + (n - 0) then { w with size := off + (n - 0) } else w)
      else w) = t := ⟨_, rfl⟩
  have haddr : ip2.addrs = w.addrs := by
    rw [← hip2]
    by_cases hn : 0 < n
    · rw [if_pos hn]
      by_cases h2 : w.size < off + (n - 0)
      · rw [if_pos h2]
      · rw [if_neg h2]
    · rw [if_neg hn]
  have hsz2 : off + n ≤ ip2.size := by
    rw [← hip2]
    by_cases hn : 0 < n
    · rw [if_pos hn]
      by_cases h2 : w.size < off + (n - 0)
      · rw [if_pos h2]
        show off + n ≤ off + (n - 0)
        omega
      · rw [if_neg h2]
        omega
    · rw [if_neg hn]
      omega
  have hdaeq : ∀ bn, dataAddr s1 ip2 bn = dataAddr s1 w bn := by
    intro bn
    exact dataAddr_frame s1 s1 w ip2 bn (fun _ => by rw [haddr])
      (fun _ _ => by rw [haddr]) (fun _ _ => by rw [haddr])
      (fun _ _ _ => rfl) (fun _ _ _ => rfl) (fun _ _ _ _ => rfl)
  obtain ⟨dst', hread, hrlo, hrhi, hrbytes⟩ :=
    readLoop_mapped (n + 1) s1 ip2 dst dstA off n 0 (by omega)
      (by
        intro i hi
        rw [hdaeq]
        exact (hBytes i hi).1)
  refine ⟨s1, ip2, ?_, dst', s1, ip2, ?_, ?_⟩
  · unfold writei
    rw [if_neg (by rw [hU]; rintro (h | h) <;> omega),
      if_neg (by rw [hU]; omega), ← hip2, hloop]
  · unfold readi
    rw [if_neg (by rw [hU]; rintro (h | h) <;> omega)]
    show (cint (if ip2.size < off + n then ip2.size - off else n),
      readLoop ((if ip2.size < off + n then ip2.size - off else n) + 1) s1 ip2 dst dstA off
        (if ip2.size < off + n then ip2.size - off else n) 0 okTrue) = _
    rw [if_neg (by omega), hread]
  · intro i hi
    have hb := hrbytes i (by omega)
    rw [hdaeq] at hb
    exact hb.trans (hBytes i (by omega)).2

theorem writei_readi_roundtrip_witness :
    Valid fs0 ino0 ∧ (0 : Nat) ≤ ino0.size ∧ (0 : Nat) + 5 ≤ MAXFILE * BSIZE ∧
    ∃ s' ip', writei fs0 ino0 src7 3 0 5 okTrue = (cint 5, s', ip') ∧
      ∃ dst' s'' ip'', readi s' ip' mem55 10 0 5 okTrue = (cint 5, dst', s'', ip'') ∧
        ∀ i, i < 5 → dst' (10 + i) = src7 (3 + i) :=
  ⟨valid_fs0_empty ino0 rfl, by decide, by decide,
   writei_readi_roundtrip fs0 ino0 src7 mem55 3 10 0 5 (valid_fs0_empty ino0 rfl)
     (by decide) (by decide)⟩
